import Mathlib

/-!
Verification of the model-based linear-arithmetic projection core
(`qe_arith.cpp`): a shallow embedding of the linearizer, the projection
driver, the optimizer driver and the coefficient extractor, together with
theorems about the frozen claims.

The expression type is a faithful counterpart of the host AST fragment the
core inspects: rational numerals, uninterpreted constants, n-ary sums,
binary differences, unary minus, binary products, `mod`, `ite`, the four
inequality operators, equality, n-ary `distinct`, negation, `false`, and
uninterpreted function/predicate applications (the atomic fall-through
cases).  The `model_based_opt` engine is external to the translated file;
its interface (variable registry, constraint rows, live rows after
projection, the optimization value) is modelled from the spec where
needed, and engine behaviour enters theorems only through explicit
contract hypotheses.
-/

namespace QeArith

/-- Host AST fragment inspected by the projection core.  `atom` is an
uninterpreted arithmetic constant, `fapp` an uninterpreted arithmetic
function application, `papp` an uninterpreted predicate application
(Boolean sorted), `batom` an uninterpreted Boolean constant. -/
inductive Expr where
  | num : ℚ → Expr
  | atom : ℕ → Expr
  | add : List Expr → Expr
  | sub : Expr → Expr → Expr
  | neg : Expr → Expr
  | mul : Expr → Expr → Expr
  | emod : Expr → Expr → Expr
  | ite : Expr → Expr → Expr → Expr
  | le : Expr → Expr → Expr
  | lt : Expr → Expr → Expr
  | ge : Expr → Expr → Expr
  | gt : Expr → Expr → Expr
  | eq : Expr → Expr → Expr
  | distinct : List Expr → Expr
  | not : Expr → Expr
  | ff : Expr
  | fapp : ℕ → List Expr → Expr
  | papp : ℕ → List Expr → Expr
  | batom : ℕ → Expr

mutual

/-- Size of an expression; used only as a termination measure. -/
def esize : Expr → ℕ
  | .num _ => 1
  | .atom _ => 1
  | .add l => 1 + esizeList l
  | .sub a b => 3 + esize a + esize b
  | .neg a => 2 + esize a
  | .mul a b => 3 + esize a + esize b
  | .emod a b => 3 + esize a + esize b
  | .ite g a b => 4 + esize g + esize a + esize b
  | .le a b => 3 + esize a + esize b
  | .lt a b => 3 + esize a + esize b
  | .ge a b => 3 + esize a + esize b
  | .gt a b => 3 + esize a + esize b
  | .eq a b => 3 + esize a + esize b
  | .distinct l => 1 + esizeList l
  | .not a => 2 + esize a
  | .ff => 1
  | .fapp _ l => 1 + esizeList l
  | .papp _ l => 1 + esizeList l
  | .batom _ => 1
termination_by structural t => t

def esizeList : List Expr → ℕ
  | [] => 0
  | x :: xs => 1 + esize x + esizeList xs
termination_by structural l => l

end

/-- Constructor discriminant of an expression: constructor index, rational
payload, symbol payload, number of children.  Two expressions with the same
discriminant and the same children are equal. -/
def Expr.tag : Expr → ℕ × ℚ × ℕ × ℕ
  | .num q => (0, q, 0, 0)
  | .atom n => (1, 0, n, 0)
  | .add l => (2, 0, 0, l.length)
  | .sub _ _ => (3, 0, 0, 2)
  | .neg _ => (4, 0, 0, 1)
  | .mul _ _ => (5, 0, 0, 2)
  | .emod _ _ => (6, 0, 0, 2)
  | .ite _ _ _ => (7, 0, 0, 3)
  | .le _ _ => (8, 0, 0, 2)
  | .lt _ _ => (9, 0, 0, 2)
  | .ge _ _ => (10, 0, 0, 2)
  | .gt _ _ => (11, 0, 0, 2)
  | .eq _ _ => (12, 0, 0, 2)
  | .distinct l => (13, 0, 0, l.length)
  | .not _ => (14, 0, 0, 1)
  | .ff => (15, 0, 0, 0)
  | .fapp n l => (16, 0, n, l.length)
  | .papp n l => (17, 0, n, l.length)
  | .batom n => (18, 0, n, 0)

/-- Children of an expression, in order. -/
def Expr.kids : Expr → List Expr
  | .num _ => []
  | .atom _ => []
  | .add l => l
  | .sub a b => [a, b]
  | .neg a => [a]
  | .mul a b => [a, b]
  | .emod a b => [a, b]
  | .ite g a b => [g, a, b]
  | .le a b => [a, b]
  | .lt a b => [a, b]
  | .ge a b => [a, b]
  | .gt a b => [a, b]
  | .eq a b => [a, b]
  | .distinct l => l
  | .not a => [a]
  | .ff => []
  | .fapp n l => l
  | .papp n l => l
  | .batom _ => []

/-- Rebuild an expression from its discriminant and children. -/
def Expr.build : ℕ × ℚ × ℕ × ℕ → List Expr → Expr
  | (0, q, _, _), _ => .num q
  | (1, _, n, _), _ => .atom n
  | (2, _, _, _), l => .add l
  | (3, _, _, _), [a, b] => .sub a b
  | (4, _, _, _), [a] => .neg a
  | (5, _, _, _), [a, b] => .mul a b
  | (6, _, _, _), [a, b] => .emod a b
  | (7, _, _, _), [g, a, b] => .ite g a b
  | (8, _, _, _), [a, b] => .le a b
  | (9, _, _, _), [a, b] => .lt a b
  | (10, _, _, _), [a, b] => .ge a b
  | (11, _, _, _), [a, b] => .gt a b
  | (12, _, _, _), [a, b] => .eq a b
  | (13, _, _, _), l => .distinct l
  | (14, _, _, _), [a] => .not a
  | (15, _, _, _), _ => .ff
  | (16, _, n, _), l => .fapp n l
  | (17, _, n, _), l => .papp n l
  | (18, _, n, _), _ => .batom n
  | _, _ => .ff

theorem Expr.build_tag_kids : ∀ a : Expr, Expr.build a.tag a.kids = a := by
  intro a
  cases a <;> rfl

theorem Expr.length_kids_tag (a : Expr) : a.kids.length = a.tag.2.2.2 := by
  cases a <;> rfl

theorem esizeList_append (l1 l2 : List Expr) :
    esizeList (l1 ++ l2) = esizeList l1 + esizeList l2 := by
  induction l1 with
  | nil => simp [esizeList]
  | cons x xs ih => simp [esizeList, ih]; ring

theorem esize_pos : ∀ a : Expr, 0 < esize a := by
  intro a
  cases a <;> simp [esize]

theorem esizeList_kids_lt (a : Expr) : esizeList a.kids < esize a := by
  cases a <;> simp [Expr.kids, esize, esizeList] <;> omega

/-- Structural equality on parallel lists of expressions: compare the
discriminants of the heads and recurse into the flattened children.  The
hash-consed host AST compares expressions by pointer, which coincides with
structural equality. -/
def beqL : List Expr → List Expr → Bool
  | [], [] => true
  | a :: as, b :: bs =>
    decide (a.tag = b.tag) && beqL (a.kids ++ as) (b.kids ++ bs)
  | _, _ => false
termination_by l1 _ => esizeList l1
decreasing_by
  simp [esizeList, esizeList_append]
  have := esizeList_kids_lt a
  omega

theorem beqL_refl : ∀ l : List Expr, beqL l l = true
  | [] => by simp [beqL]
  | a :: as => by
    rw [beqL]
    simp [beqL_refl (a.kids ++ as)]
termination_by l => esizeList l
decreasing_by
  simp [esizeList, esizeList_append]
  have := esizeList_kids_lt a
  omega

theorem eq_of_beqL : ∀ l1 l2 : List Expr, beqL l1 l2 = true → l1 = l2
  | [], [], _ => rfl
  | a :: as, b :: bs, h => by
    rw [beqL] at h
    simp only [Bool.and_eq_true, decide_eq_true_eq] at h
    obtain ⟨htag, hrec⟩ := h
    have hk := eq_of_beqL _ _ hrec
    have hlen : a.kids.length = b.kids.length := by
      rw [Expr.length_kids_tag, Expr.length_kids_tag, htag]
    obtain ⟨hk1, hk2⟩ := List.append_inj hk hlen
    have hab : a = b := by
      rw [← Expr.build_tag_kids a, ← Expr.build_tag_kids b, htag, hk1]
    rw [hab, hk2]
  | [], _ :: _, h => by simp [beqL] at h
  | _ :: _, [], h => by simp [beqL] at h
termination_by l1 _ => esizeList l1
decreasing_by
  simp [esizeList, esizeList_append]
  have := esizeList_kids_lt a
  omega

instance : DecidableEq Expr := fun a b =>
  decidable_of_iff (beqL [a] [b] = true)
    ⟨fun h => by have := eq_of_beqL [a] [b] h; simpa using this,
     fun h => by rw [h]; exact beqL_refl [b]⟩

/-- Interpretation of the uninterpreted symbols: the model.  The host
evaluator is external; it is modelled as a total valuation (the extractor
switches on model completion, so unassigned symbols also carry values). -/
structure Model where
  aval : ℕ → ℚ
  fval : ℕ → List ℚ → ℚ
  pval : ℕ → List ℚ → Bool
  bval : ℕ → Bool

/-- SMT-style integer `mod` totalized over the rationals: for a positive
divisor the remainder of the floor division, for a negative divisor the
remainder of the ceiling division, and the dividend itself for divisor 0. -/
def ratMod (a b : ℚ) : ℚ :=
  if b = 0 then a else a - b * (if 0 < b then (⌊a / b⌋ : ℚ) else (⌈a / b⌉ : ℚ))

mutual

/-- Numeric value of an arithmetic term in a model (Boolean nodes take a
junk value 0; the core never consumes them numerically). -/
def evalT (M : Model) : Expr → ℚ
  | .num q => q
  | .atom n => M.aval n
  | .add l => evalTSum M l
  | .sub a b => evalT M a - evalT M b
  | .neg a => - evalT M a
  | .mul a b => evalT M a * evalT M b
  | .emod a b => ratMod (evalT M a) (evalT M b)
  | .ite g a b => if evalF M g then evalT M a else evalT M b
  | .fapp n l => M.fval n (evalTArgs M l)
  | _ => 0
termination_by structural t => t

def evalTSum (M : Model) : List Expr → ℚ
  | [] => 0
  | x :: xs => evalT M x + evalTSum M xs
termination_by structural l => l

def evalTArgs (M : Model) : List Expr → List ℚ
  | [] => []
  | x :: xs => evalT M x :: evalTArgs M xs
termination_by structural l => l

/-- Truth value of a Boolean term in a model (arithmetic nodes take a junk
value `false`). -/
def evalF (M : Model) : Expr → Bool
  | .le a b => evalT M a ≤ evalT M b
  | .lt a b => evalT M a < evalT M b
  | .ge a b => evalT M b ≤ evalT M a
  | .gt a b => evalT M b < evalT M a
  | .eq a b => evalT M a = evalT M b
  | .distinct l => (evalTArgs M l).Pairwise (· ≠ ·)
  | .not f => !evalF M f
  | .ff => false
  | .papp n l => M.pval n (evalTArgs M l)
  | .batom n => M.bval n
  | .ite g a b => if evalF M g then evalF M a else evalF M b
  | _ => false
termination_by structural t => t

end

/-- Arithmetic-sort test (`a.is_int(e) || a.is_real(e)`), derived from the
node kind: numerals, uninterpreted arithmetic symbols and arithmetic
operators are arithmetic; an `ite` has the sort of its branches. -/
def isArith : Expr → Bool
  | .num _ => true
  | .atom _ => true
  | .add _ => true
  | .sub _ _ => true
  | .neg _ => true
  | .mul _ _ => true
  | .emod _ _ => true
  | .ite _ a _ => isArith a
  | .fapp _ _ => true
  | _ => false

/-- Negation helper used when a guard is emitted.  Modelled from the spec:
the side formula for a false guard is the negation of the guard; the host
helper avoids stacking a double negation. -/
def mkNot : Expr → Expr
  | .not e => e
  | e => .not e

/-- Row type of an engine constraint (`opt::ineq_type`). -/
inductive IneqType where
  | le
  | lt
  | eq
  | mod
deriving DecidableEq

/-- One `(engine-var-id, coefficient)` entry (`opt::model_based_opt::var`). -/
structure MboVar where
  id : ℕ
  coeff : ℚ
deriving DecidableEq

/-- An engine row `Σ coeffᵢ·xᵢ + coeff R 0`; for `R = mod` the modulus is
attached.  Modelled from the spec: rows are interior state of the external
`model_based_opt` engine; the spec fixes their shape as
`(vars, coeff, type, mod?)`. -/
structure Row where
  vars : List MboVar
  coeff : ℚ
  ty : IneqType
  mod : ℚ
deriving DecidableEq

/-- State of the external optimization engine that the core can observe
through its facade.  Modelled from the spec: `add-var` registers a
variable seeded with a concrete value and returns its id (ids are dense
indices here), `add-constraint` and `add-divides` append rows, and
`set-objective` records the objective.  The is-integer flag passed to
`add-var` only selects the engine variable class and never flows back into
the lifted literals, so it is not modelled. -/
structure Mbo where
  vars : List ℚ
  cons : List Row
  objective : List MboVar × ℚ

def Mbo.empty : Mbo := ⟨[], [], ([], 0)⟩

/-- Register a fresh engine variable with its seed value; return its id. -/
def Mbo.addVar (m : Mbo) (r : ℚ) : Mbo × ℕ :=
  ({ m with vars := m.vars ++ [r] }, m.vars.length)

def Mbo.addConstraint (m : Mbo) (coeffs : List MboVar) (c : ℚ) (ty : IneqType) : Mbo :=
  { m with cons := m.cons ++ [⟨coeffs, c, ty, 0⟩] }

def Mbo.addDivides (m : Mbo) (coeffs : List MboVar) (c : ℚ) (k : ℚ) : Mbo :=
  { m with cons := m.cons ++ [⟨coeffs, c, .mod, k⟩] }

def Mbo.setObjective (m : Mbo) (coeffs : List MboVar) (c : ℚ) : Mbo :=
  { m with objective := (coeffs, c) }

/-- Seed value of an engine variable (the value `add-var` was given). -/
def Mbo.seed (m : Mbo) (id : ℕ) : ℚ := m.vars.getD id 0

/-- The shared mutable state threaded through the core: the engine
instance and the `term → engine-id` map `tids`. -/
structure GState where
  mbo : Mbo
  tids : List (Expr × ℕ)

/-- Look up the engine id of a term (`tids.find`). -/
def lookupTid (tids : List (Expr × ℕ)) (t : Expr) : Option ℕ :=
  match tids.find? (fun p => p.1 = t) with
  | some p => some p.2
  | none => none

/-- The linear-combination accumulator: the `term → coefficient` map `ts`
and the constant summand `c`. -/
structure Accum where
  ts : List (Expr × ℚ)
  c : ℚ

/-- `insert_mul`: add `v` to the coefficient of `x` in the accumulator map,
inserting `x` if absent. -/
def insertMul (x : Expr) (v : ℚ) : List (Expr × ℚ) → List (Expr × ℚ)
  | [] => [(x, v)]
  | (y, w) :: rest =>
    if y = x then (y, w + v) :: rest else (y, w) :: insertMul x v rest

mutual

/-- `is_numeral`: recognize a statically constant term (numeric literals,
unary minus, products, n-ary sums, binary difference) and compute its
value. -/
def isNumeral : Expr → Option ℚ
  | .num r => some r
  | .neg t =>
    match isNumeral t with
    | some r => some (-r)
    | none => none
  | .mul a b =>
    match isNumeral a, isNumeral b with
    | some r1, some r2 => some (r1 * r2)
    | _, _ => none
  | .add l => isNumeralSum l
  | .sub a b =>
    match isNumeral a, isNumeral b with
    | some r1, some r2 => some (r1 - r2)
    | _, _ => none
  | _ => none
termination_by structural t => t

def isNumeralSum : List Expr → Option ℚ
  | [] => some 0
  | x :: xs =>
    match isNumeral x, isNumeralSum xs with
    | some r, some s => some (r + s)
    | _, _ => none
termination_by structural l => l

end

/-- `extract_coefficients`: walk the accumulator map in order; register a
fresh engine variable (seeded with the model value of the term, with model
completion on) for each term without an id yet; emit `(id, coefficient)`
pairs, skipping zero coefficients. -/
def extractCoefficients (M : Model) (g : GState) :
    List (Expr × ℚ) → GState × List MboVar
  | [] => (g, [])
  | (v, q) :: rest =>
    let step : GState × ℕ :=
      match lookupTid g.tids v with
      | some id => (g, id)
      | none =>
        let r := evalT M v
        let p := g.mbo.addVar r
        ({ mbo := p.1, tids := g.tids ++ [(v, p.2)] }, p.2)
    let tail := extractCoefficients M step.1 rest
    (tail.1, if q = 0 then tail.2 else ⟨step.2, q⟩ :: tail.2)

/-- Result of linearizing a term: the updated shared state, the updated
accumulator, and the guard literals pushed onto the caller's formula
vector (in push order). -/
structure TRes where
  g : GState
  acc : Accum
  news : List Expr

mutual

/-- `linearize` (term form): fold the term `t`, scaled by `mul`, into the
accumulator.  Constant-factor products recurse with a scaled multiplier;
sums, differences and unary minus recurse structurally; numerals go into
the constant; an `ite` recurses only into the branch selected by the model
and pushes the taken guard (or its negation) as a side formula; a `mod` by
a constant contributes its model value to the constant and submits a
divisibility row for `u - r` built in a fresh accumulator; everything else
is treated as an atomic engine variable. -/
def linearizeTerm (M : Model) (mul : ℚ) (t : Expr) (g : GState) (acc : Accum) : TRes :=
  match t with
  | .mul t1 t2 =>
    match isNumeral t1 with
    | some k => linearizeTerm M (mul * k) t2 g acc
    | none =>
      match isNumeral t2 with
      | some k => linearizeTerm M (mul * k) t1 g acc
      | none => ⟨g, { acc with ts := insertMul t mul acc.ts }, []⟩
  | .add l => linearizeTermList M mul l g acc
  | .sub t1 t2 =>
    let r1 := linearizeTerm M mul t1 g acc
    let r2 := linearizeTerm M (-mul) t2 r1.g r1.acc
    ⟨r2.g, r2.acc, r1.news ++ r2.news⟩
  | .neg t1 => linearizeTerm M (-mul) t1 g acc
  | .num k => ⟨g, { acc with c := acc.c + mul * k }, []⟩
  | .ite t1 t2 t3 =>
    if evalF M t1 then
      let r := linearizeTerm M mul t2 g acc
      ⟨r.g, r.acc, r.news ++ [t1]⟩
    else
      let r := linearizeTerm M mul t3 g acc
      ⟨r.g, r.acc, mkNot t1 :: r.news⟩
  | .emod t1 t2 =>
    match isNumeral t2 with
    | some k =>
      let r := evalT M (.emod t1 t2)
      let inner := linearizeTerm M 1 t1 g ⟨[], -r⟩
      let ext := extractCoefficients M inner.g inner.acc.ts
      ⟨{ ext.1 with mbo := ext.1.mbo.addDivides ext.2 inner.acc.c k },
       { acc with c := acc.c + mul * r }, inner.news⟩
    | none => ⟨g, { acc with ts := insertMul t mul acc.ts }, []⟩
  | _ => ⟨g, { acc with ts := insertMul t mul acc.ts }, []⟩
termination_by structural t

/-- The loop over the arguments of an n-ary sum. -/
def linearizeTermList (M : Model) (mul : ℚ) (l : List Expr) (g : GState) (acc : Accum) : TRes :=
  match l with
  | [] => ⟨g, acc, []⟩
  | x :: xs =>
    let r1 := linearizeTerm M mul x g acc
    let r2 := linearizeTermList M mul xs r1.g r1.acc
    ⟨r2.g, r2.acc, r1.news ++ r2.news⟩
termination_by structural l

end

/-- Result of linearizing a literal: the updated shared state, the pushed
guard literals, and the consumed/residue flag. -/
structure LRes where
  g : GState
  news : List Expr
  ok : Bool

/-- Shared tail of the literal dispatch: accumulate `+mul·e1` and
`−mul·e2` into a fresh accumulator, extract the coefficients and submit
one row of the given type to the engine. -/
def submitIneq (M : Model) (g : GState) (mul : ℚ) (e1 e2 : Expr) (ty : IneqType) : LRes :=
  let r1 := linearizeTerm M mul e1 g ⟨[], 0⟩
  let r2 := linearizeTerm M (-mul) e2 r1.g r1.acc
  let ext := extractCoefficients M r2.g r2.acc.ts
  ⟨{ ext.1 with mbo := ext.1.mbo.addConstraint ext.2 r2.acc.c ty }, r1.news ++ r2.news, true⟩

/-- `linearize` (literal form), all shapes except `distinct`: the four
inequality operators (with `ge`/`gt` reading their arguments swapped), an
arithmetic equality, and a negated arithmetic equality (which evaluates
both sides in the model, swaps them when the first value is smaller, and
submits a strict row); every other shape is residue. -/
def linearizeLitCore (M : Model) (g : GState) (isNot : Bool) (mul : ℚ) (l : Expr) : LRes :=
  match l with
  | .le e1 e2 => submitIneq M g mul e1 e2 (if isNot then .lt else .le)
  | .ge e2 e1 => submitIneq M g mul e1 e2 (if isNot then .lt else .le)
  | .lt e1 e2 => submitIneq M g mul e1 e2 (if isNot then .le else .lt)
  | .gt e2 e1 => submitIneq M g mul e1 e2 (if isNot then .le else .lt)
  | .eq e1 e2 =>
    if !isNot && isArith e1 then
      submitIneq M g mul e1 e2 .eq
    else if isNot && isArith e1 then
      let r1 := evalT M e1
      let r2 := evalT M e2
      let p := if r1 < r2 then (e2, e1) else (e1, e2)
      submitIneq M g mul p.1 p.2 .lt
    else ⟨g, [], false⟩
  | _ => ⟨g, [], false⟩

/-- The loop of the non-negated `distinct` case: submit `aᵢ < aᵢ₊₁` for
each consecutive pair of the value-sorted argument list, stopping early on
a residue result.  Each constructed `<` literal always lands in the `lt`
case of the dispatch, so the recursive `linearize` call of the host is
expressed through the shared core. -/
def distinctPairs (M : Model) (g : GState) : List (Expr × ℚ) → LRes
  | p :: q :: rest =>
    let r := linearizeLitCore M g false 1 (.lt p.1 q.1)
    if r.ok then
      let r2 := distinctPairs M r.g (q :: rest)
      ⟨r2.g, r.news ++ r2.news, r2.ok⟩
    else ⟨r.g, r.news, false⟩
  | _ => ⟨g, [], true⟩

/-- The scan of the negated `distinct` case: walk the arguments left to
right, remembering each model value, and return the first argument whose
value was already seen, paired with the earlier argument carrying that
value. -/
def findEqPair (M : Model) : List (ℚ × Expr) → List Expr → Option (Expr × Expr)
  | _, [] => none
  | seen, a :: rest =>
    let r := evalT M a
    match seen.find? (fun p => p.1 = r) with
    | some p => some (a, p.2)
    | none => findEqPair M ((r, a) :: seen) rest

/-- The dispatch of `linearize` (literal form) after the leading negation
has been peeled.  A non-negated arithmetic `distinct` evaluates the
arguments, sorts them by model value and submits the consecutive strict
inequalities; a negated arithmetic `distinct` submits an equality between
the first two arguments with equal model value (adding a trivial `0 ≤ 0`
row if no collision exists, as the host loop does when the scan finds no
pair); the remaining shapes go through the shared core.  Returns `false`
when the literal is residue. -/
def linearizeLitPeeled (M : Model) (g : GState) (isNot : Bool) (mul : ℚ) (l : Expr) : LRes :=
  match l with
  | .distinct args =>
    match args with
    | [] => ⟨g, [], false⟩
    | a0 :: _ =>
      if isArith a0 then
        if isNot then
          match findEqPair M [] args with
          | some pr => submitIneq M g mul pr.1 pr.2 .eq
          | none =>
            let ext := extractCoefficients M g []
            ⟨{ ext.1 with mbo := ext.1.mbo.addConstraint ext.2 0 .le }, [], true⟩
        else
          let nums := args.map (fun a => (a, evalT M a))
          let sorted := List.insertionSort (fun p q : Expr × ℚ => p.2 ≤ q.2) nums
          distinctPairs M g sorted
      else ⟨g, [], false⟩
  | _ => linearizeLitCore M g isNot mul l

/-- `linearize` (literal form): peel one leading negation, recording the
sign flip `mul := -1`, then dispatch on the shape. -/
def linearizeLit (M : Model) (g : GState) (lit : Expr) : LRes :=
  match lit with
  | .not l => linearizeLitPeeled M g true (-1) l
  | l => linearizeLitPeeled M g false 1 l

/-- The reverse map `index2expr` from engine ids back to terms, built from
`tids` exactly as the host builds the `setx` array. -/
def index2expr (tids : List (Expr × ℕ)) : ℕ → Expr :=
  tids.foldl (fun f p => fun i => if i = p.2 then p.1 else f i) (fun _ => .num 0)

/-- Lift one surviving engine row back to a symbolic literal.  A row with
no variables is skipped.  A row with exactly one variable, a negative
coefficient and a non-`mod` type becomes `(−coeff·x) R* coeff` with `R*`
the mirrored relation (the host marks the `mod` sub-case unreachable
there; it is mapped to the equality shape to keep the function total).
Any other row becomes `Σ coeffᵢ·xᵢ R (−coeff)`, where a `mod` row compares
`(t − s) mod m` with 0, dropping the subtraction when the row constant is
zero. -/
def liftRow (idx : ℕ → Expr) (r : Row) : Option Expr :=
  match r.vars with
  | [] => none
  | v :: rest =>
    if rest = [] ∧ v.coeff < 0 ∧ r.ty ≠ .mod then
      let t0 : Expr := idx v.id
      let t : Expr := if v.coeff = -1 then t0 else .mul (.num (-v.coeff)) t0
      let s : Expr := .num r.coeff
      match r.ty with
      | .lt => some (.gt t s)
      | .le => some (.ge t s)
      | _ => some (.eq t s)
    else
      let ts : List Expr := r.vars.map (fun w =>
        if w.coeff = 1 then idx w.id else .mul (.num w.coeff) (idx w.id))
      let s : Expr := .num (-r.coeff)
      let t : Expr := match ts with
        | [e] => e
        | _ => .add ts
      match r.ty with
      | .lt => some (.lt t s)
      | .le => some (.le t s)
      | .eq => some (.eq t s)
      | .mod =>
        let t2 := if r.coeff ≠ 0 then Expr.sub t s else t
        some (.eq (.emod t2 (.num r.mod)) (.num 0))

mutual

/-- `mark_rec`: mark an expression together with its sub-expressions,
stopping at already-marked nodes; the marked set doubles as the visited
set, exactly as in the host, so a node that was pre-marked without a
traversal shields its subtree. -/
def markRec (visited : List Expr) (e : Expr) : List Expr :=
  if e ∈ visited then visited
  else markRecList (e :: visited) e.kids
termination_by esize e
decreasing_by
  have := esizeList_kids_lt e
  omega

def markRecList (visited : List Expr) : List Expr → List Expr
  | [] => visited
  | x :: xs => markRecList (markRec visited x) xs
termination_by l => esizeList l
decreasing_by
  all_goals simp [esizeList]
  all_goals (have h := esize_pos x; omega)

end

/-! Termination of the literal-vector loop.  Guards pushed while a literal
is processed are strict sub-terms of that literal (up to one negation with
a strictly smaller body), so the exponential potential of the pending
vector decreases at every step. -/

/-- Potential of a literal vector. -/
def pot (l : List Expr) : ℕ := (l.map (fun f => 2 ^ esize f)).sum

theorem pot_nil : pot [] = 0 := rfl

theorem pot_cons (x : Expr) (l : List Expr) : pot (x :: l) = 2 ^ esize x + pot l := by
  simp [pot]

theorem pot_append (a b : List Expr) : pot (a ++ b) = pot a + pot b := by
  simp [pot]

theorem pow2_mono {a b : ℕ} (h : a ≤ b) : (2 : ℕ) ^ a ≤ 2 ^ b :=
  Nat.pow_le_pow_right (by norm_num) h

theorem two_pow_add_le {a b : ℕ} (ha : 1 ≤ a) (hb : 1 ≤ b) :
    (2 : ℕ) ^ a + 2 ^ b ≤ 2 ^ (a + b) := by
  have h1 : (2 : ℕ) ≤ 2 ^ a := by
    calc (2 : ℕ) = 2 ^ 1 := by norm_num
    _ ≤ 2 ^ a := pow2_mono ha
  have h2 : (2 : ℕ) ≤ 2 ^ b := by
    calc (2 : ℕ) = 2 ^ 1 := by norm_num
    _ ≤ 2 ^ b := pow2_mono hb
  calc (2 : ℕ) ^ a + 2 ^ b ≤ 2 ^ a * 2 ^ b := Nat.add_le_mul h1 h2
  _ = 2 ^ (a + b) := (pow_add 2 a b).symm

theorem esize_mkNot (e : Expr) : esize (mkNot e) ≤ 2 + esize e := by
  cases e <;> simp [mkNot, esize] <;> omega

theorem esizeList_eq_sum (l : List Expr) :
    esizeList l = (l.map (fun e => 1 + esize e)).sum := by
  induction l with
  | nil => simp [esizeList]
  | cons x xs ih => simp [esizeList, ih]

theorem esize_le_of_mem {x : Expr} {l : List Expr} (h : x ∈ l) :
    1 + esize x ≤ esizeList l := by
  induction l with
  | nil => cases h
  | cons y ys ih =>
    rcases List.mem_cons.mp h with h1 | h1
    · subst h1
      simp [esizeList]
    · have := ih h1
      simp [esizeList]
      omega

theorem pow2_pos (a : ℕ) : 0 < (2 : ℕ) ^ a := pow_pos (by norm_num) a

mutual

theorem pot_news_linearizeTerm :
    ∀ (M : Model) (mul : ℚ) (t : Expr) (g : GState) (acc : Accum),
      pot (linearizeTerm M mul t g acc).news < 2 ^ esize t
  | M, mul, .mul t1 t2, g, acc => by
    rw [linearizeTerm]
    rcases h1 : isNumeral t1 with _ | k
    · rcases h2 : isNumeral t2 with _ | k
      · simpa [pot_nil] using pow2_pos (esize (Expr.mul t1 t2))
      · have := pot_news_linearizeTerm M (mul * k) t1 g acc
        have hm : esize t1 ≤ esize (Expr.mul t1 t2) := by simp only [esize]; omega
        exact lt_of_lt_of_le this (pow2_mono hm)
    · have := pot_news_linearizeTerm M (mul * k) t2 g acc
      have hm : esize t2 ≤ esize (Expr.mul t1 t2) := by simp only [esize]; omega
      exact lt_of_lt_of_le this (pow2_mono hm)
  | M, mul, .add l, g, acc => by
    rw [linearizeTerm]
    have := pot_news_linearizeTermList M mul l g acc
    have hm : esizeList l ≤ esize (Expr.add l) := by simp only [esize]; omega
    exact lt_of_lt_of_le this (pow2_mono hm)
  | M, mul, .sub t1 t2, g, acc => by
    rw [linearizeTerm]
    simp only [pot_append]
    have h1 := pot_news_linearizeTerm M mul t1 g acc
    have h2 := pot_news_linearizeTerm M (-mul) t2
      (linearizeTerm M mul t1 g acc).g (linearizeTerm M mul t1 g acc).acc
    have hab := two_pow_add_le (esize_pos t1) (esize_pos t2)
    have hm : esize t1 + esize t2 ≤ esize (Expr.sub t1 t2) := by simp only [esize]; omega
    have := pow2_mono hm
    omega
  | M, mul, .neg t1, g, acc => by
    rw [linearizeTerm]
    have := pot_news_linearizeTerm M (-mul) t1 g acc
    have hm : esize t1 ≤ esize (Expr.neg t1) := by simp only [esize]; omega
    exact lt_of_lt_of_le this (pow2_mono hm)
  | M, mul, .num k, g, acc => by
    rw [linearizeTerm]
    simpa [pot_nil] using pow2_pos (esize (Expr.num k))
  | M, mul, .ite t1 t2 t3, g, acc => by
    rw [linearizeTerm]
    by_cases hg : evalF M t1 = true
    · simp only [hg, if_true, pot_append, pot_cons, pot_nil]
      have h2 := pot_news_linearizeTerm M mul t2 g acc
      have hab := two_pow_add_le (esize_pos t2) (esize_pos t1)
      have hm : esize t2 + esize t1 ≤ esize (Expr.ite t1 t2 t3) := by simp only [esize]; omega
      have := pow2_mono hm
      omega
    · simp only [hg, Bool.false_eq_true, if_false, pot_cons]
      have h3 := pot_news_linearizeTerm M mul t3 g acc
      have hmk2 : (2 : ℕ) ^ esize (mkNot t1) ≤ 2 ^ (2 + esize t1) := pow2_mono (esize_mkNot t1)
      have hab := two_pow_add_le (a := 2 + esize t1) (b := esize t3) (by omega) (esize_pos t3)
      have hm : 2 + esize t1 + esize t3 ≤ esize (Expr.ite t1 t2 t3) := by simp only [esize]; omega
      have := pow2_mono hm
      omega
  | M, mul, .emod t1 t2, g, acc => by
    rw [linearizeTerm]
    rcases h1 : isNumeral t2 with _ | k
    · simpa [pot_nil] using pow2_pos (esize (Expr.emod t1 t2))
    · have := pot_news_linearizeTerm M 1 t1 g ⟨[], -(evalT M (Expr.emod t1 t2))⟩
      have hm : esize t1 ≤ esize (Expr.emod t1 t2) := by simp only [esize]; omega
      exact lt_of_lt_of_le this (pow2_mono hm)
  | M, mul, .atom n, g, acc => by
    simp only [linearizeTerm]; simpa [pot_nil] using pow2_pos (esize (Expr.atom n))
  | M, mul, .le a b, g, acc => by
    simp only [linearizeTerm]; simpa [pot_nil] using pow2_pos (esize (Expr.le a b))
  | M, mul, .lt a b, g, acc => by
    simp only [linearizeTerm]; simpa [pot_nil] using pow2_pos (esize (Expr.lt a b))
  | M, mul, .ge a b, g, acc => by
    simp only [linearizeTerm]; simpa [pot_nil] using pow2_pos (esize (Expr.ge a b))
  | M, mul, .gt a b, g, acc => by
    simp only [linearizeTerm]; simpa [pot_nil] using pow2_pos (esize (Expr.gt a b))
  | M, mul, .eq a b, g, acc => by
    simp only [linearizeTerm]; simpa [pot_nil] using pow2_pos (esize (Expr.eq a b))
  | M, mul, .distinct l, g, acc => by
    simp only [linearizeTerm]; simpa [pot_nil] using pow2_pos (esize (Expr.distinct l))
  | M, mul, .not a, g, acc => by
    simp only [linearizeTerm]; simpa [pot_nil] using pow2_pos (esize (Expr.not a))
  | M, mul, .ff, g, acc => by
    simp only [linearizeTerm]; simpa [pot_nil] using pow2_pos (esize Expr.ff)
  | M, mul, .fapp n l, g, acc => by
    simp only [linearizeTerm]; simpa [pot_nil] using pow2_pos (esize (Expr.fapp n l))
  | M, mul, .papp n l, g, acc => by
    simp only [linearizeTerm]; simpa [pot_nil] using pow2_pos (esize (Expr.papp n l))
  | M, mul, .batom n, g, acc => by
    simp only [linearizeTerm]; simpa [pot_nil] using pow2_pos (esize (Expr.batom n))
termination_by structural _ _ t _ _ => t

theorem pot_news_linearizeTermList :
    ∀ (M : Model) (mul : ℚ) (l : List Expr) (g : GState) (acc : Accum),
      pot (linearizeTermList M mul l g acc).news < 2 ^ esizeList l
  | M, mul, [], g, acc => by
    rw [linearizeTermList]
    simpa [pot_nil] using pow2_pos (esizeList [])
  | M, mul, x :: xs, g, acc => by
    rw [linearizeTermList]
    simp only [pot_append]
    have h1 := pot_news_linearizeTerm M mul x g acc
    have h2 := pot_news_linearizeTermList M mul xs
      (linearizeTerm M mul x g acc).g (linearizeTerm M mul x g acc).acc
    have hx := esize_pos x
    by_cases hxs : esizeList xs = 0
    · have hm : esize x ≤ esizeList (x :: xs) := by simp only [esizeList]; omega
      have := pow2_mono hm
      have h20 : (2 : ℕ) ^ esizeList xs = 1 := by rw [hxs]; norm_num
      omega
    · have hab := two_pow_add_le (a := esize x) (b := esizeList xs) hx (by omega)
      have hm : esize x + esizeList xs ≤ esizeList (x :: xs) := by simp only [esizeList]; omega
      have := pow2_mono hm
      omega
termination_by structural _ _ l _ _ => l

end

theorem pot_news_submitIneq (M : Model) (g : GState) (mul : ℚ) (e1 e2 : Expr) (ty : IneqType) :
    pot (submitIneq M g mul e1 e2 ty).news + 2 ≤ 2 ^ esize e1 + 2 ^ esize e2 := by
  rw [submitIneq]
  simp only [pot_append]
  have h1 := pot_news_linearizeTerm M mul e1 g ⟨[], 0⟩
  have h2 := pot_news_linearizeTerm M (-mul) e2
    (linearizeTerm M mul e1 g ⟨[], 0⟩).g (linearizeTerm M mul e1 g ⟨[], 0⟩).acc
  omega

theorem pot_news_linearizeLitCore (M : Model) (g : GState) (isNot : Bool) (mul : ℚ) (l : Expr) :
    pot (linearizeLitCore M g isNot mul l).news < 2 ^ esize l := by
  cases l
  case le e1 e2 =>
    rw [linearizeLitCore]
    have h := pot_news_submitIneq M g mul e1 e2 (if isNot then .lt else .le)
    have hab := two_pow_add_le (esize_pos e1) (esize_pos e2)
    have hm := pow2_mono (show esize e1 + esize e2 ≤ esize (Expr.le e1 e2) by
      simp only [esize]; omega)
    omega
  case ge a b =>
    rw [linearizeLitCore]
    have h := pot_news_submitIneq M g mul b a (if isNot then .lt else .le)
    have hab := two_pow_add_le (esize_pos b) (esize_pos a)
    have hm := pow2_mono (show esize b + esize a ≤ esize (Expr.ge a b) by
      simp only [esize]; omega)
    omega
  case lt e1 e2 =>
    rw [linearizeLitCore]
    have h := pot_news_submitIneq M g mul e1 e2 (if isNot then .le else .lt)
    have hab := two_pow_add_le (esize_pos e1) (esize_pos e2)
    have hm := pow2_mono (show esize e1 + esize e2 ≤ esize (Expr.lt e1 e2) by
      simp only [esize]; omega)
    omega
  case gt a b =>
    rw [linearizeLitCore]
    have h := pot_news_submitIneq M g mul b a (if isNot then .le else .lt)
    have hab := two_pow_add_le (esize_pos b) (esize_pos a)
    have hm := pow2_mono (show esize b + esize a ≤ esize (Expr.gt a b) by
      simp only [esize]; omega)
    omega
  case eq e1 e2 =>
    rw [linearizeLitCore]
    have hab := two_pow_add_le (esize_pos e1) (esize_pos e2)
    have hab2 := two_pow_add_le (esize_pos e2) (esize_pos e1)
    have hm := pow2_mono (show esize e1 + esize e2 ≤ esize (Expr.eq e1 e2) by
      simp only [esize]; omega)
    have hm2 := pow2_mono (show esize e2 + esize e1 ≤ esize (Expr.eq e1 e2) by
      simp only [esize]; omega)
    by_cases hc1 : (!isNot && isArith e1) = true
    · simp only [hc1, if_true]
      have h := pot_news_submitIneq M g mul e1 e2 .eq
      omega
    · simp only [hc1, Bool.false_eq_true, if_false]
      by_cases hc2 : (isNot && isArith e1) = true
      · simp only [hc2, if_true]
        by_cases hsw : evalT M e1 < evalT M e2
        · simp only [hsw, if_true]
          have h := pot_news_submitIneq M g mul e2 e1 .lt
          omega
        · simp only [hsw, if_false]
          have h := pot_news_submitIneq M g mul e1 e2 .lt
          omega
      · simp only [hc2, Bool.false_eq_true, if_false]
        simpa [pot_nil] using pow2_pos (esize (Expr.eq e1 e2))
  all_goals (simp only [linearizeLitCore]; simpa [pot_nil] using pow2_pos _)

theorem pot_news_distinctPairs :
    ∀ (M : Model) (g : GState) (s : List (Expr × ℚ)),
      pot (distinctPairs M g s).news < 2 ^ (esizeList (s.map Prod.fst) + 1)
  | M, g, [] => by
    have h : distinctPairs M g [] = ⟨g, [], true⟩ := rfl
    rw [h]
    simpa [pot_nil] using pow2_pos (esizeList (([] : List (Expr × ℚ)).map Prod.fst) + 1)
  | M, g, [p] => by
    have h : distinctPairs M g [p] = ⟨g, [], true⟩ := rfl
    rw [h]
    simpa [pot_nil] using pow2_pos (esizeList ([p].map Prod.fst) + 1)
  | M, g, p :: q :: rest => by
    rw [distinctPairs]
    have hcore : pot (linearizeLitCore M g false 1 (.lt p.1 q.1)).news + 2 ≤
        2 ^ esize p.1 + 2 ^ esize q.1 := by
      rw [linearizeLitCore]
      exact pot_news_submitIneq M g 1 p.1 q.1 .lt
    have hrest := pot_news_distinctPairs M (linearizeLitCore M g false 1 (.lt p.1 q.1)).g
      (q :: rest)
    have hsq : esizeList ((q :: rest).map Prod.fst) =
        1 + esize q.1 + esizeList (rest.map Prod.fst) := by
      simp only [List.map_cons, esizeList]
    have hstot : esizeList ((p :: q :: rest).map Prod.fst) =
        2 + esize p.1 + esize q.1 + esizeList (rest.map Prod.fst) := by
      simp only [List.map_cons, esizeList]
      omega
    rw [hsq] at hrest
    rw [hstot]
    set R := esizeList (rest.map Prod.fst) with hR
    have e1 : (2 : ℕ) ^ esize p.1 ≤ 2 ^ (esize p.1 + esize q.1 + R) := pow2_mono (by omega)
    have e2 : (2 : ℕ) ^ esize q.1 ≤ 2 ^ (esize p.1 + esize q.1 + R) := pow2_mono (by omega)
    have e3 : (2 : ℕ) ^ (1 + esize q.1 + R + 1) ≤ 4 * 2 ^ (esize p.1 + esize q.1 + R) := by
      have h1 : 1 + esize q.1 + R + 1 ≤ 2 + (esize p.1 + esize q.1 + R) := by
        have := esize_pos p.1
        omega
      calc (2 : ℕ) ^ (1 + esize q.1 + R + 1) ≤ 2 ^ (2 + (esize p.1 + esize q.1 + R)) :=
        pow2_mono h1
      _ = 4 * 2 ^ (esize p.1 + esize q.1 + R) := by rw [pow_add]; ring
    have e4 : (2 : ℕ) ^ (2 + esize p.1 + esize q.1 + R + 1) =
        8 * 2 ^ (esize p.1 + esize q.1 + R) := by
      have h1 : 2 + esize p.1 + esize q.1 + R + 1 = 3 + (esize p.1 + esize q.1 + R) := by omega
      rw [h1, pow_add]
      ring
    by_cases hok : (linearizeLitCore M g false 1 (.lt p.1 q.1)).ok = true
    · simp only [hok, if_true, pot_append]
      omega
    · simp only [hok, Bool.false_eq_true, if_false]
      omega
termination_by _ _ s => s.length

theorem findEqPair_mem (M : Model) :
    ∀ (seen : List (ℚ × Expr)) (args : List Expr) (a b : Expr),
      findEqPair M seen args = some (a, b) →
      a ∈ args ∧ (b ∈ args ∨ b ∈ seen.map Prod.snd) := by
  intro seen args
  induction args generalizing seen with
  | nil =>
    intro a b h
    rw [findEqPair] at h
    cases h
  | cons x xs ih =>
    intro a b h
    rw [findEqPair] at h
    rcases hf : List.find? (fun p => decide (p.1 = evalT M x)) seen with _ | p
    · rw [hf] at h
      have := ih ((evalT M x, x) :: seen) a b h
      rcases this with ⟨h1, h2⟩
      refine ⟨List.mem_cons_of_mem _ h1, ?_⟩
      rcases h2 with h2 | h2
      · exact Or.inl (List.mem_cons_of_mem _ h2)
      · simp only [List.map_cons, List.mem_cons] at h2
        rcases h2 with h2 | h2
        · exact Or.inl (by simp [h2])
        · exact Or.inr h2
    · rw [hf] at h
      simp only [Option.some.injEq, Prod.mk.injEq] at h
      rcases h with ⟨h1, h2⟩
      subst h1
      subst h2
      refine ⟨List.mem_cons_self _ _, Or.inr ?_⟩
      have hmem := List.mem_of_find?_eq_some hf
      exact List.mem_map_of_mem Prod.snd hmem

theorem pot_news_linearizeLitPeeled (M : Model) (g : GState) (isNot : Bool) (mul : ℚ)
    (l : Expr) : pot (linearizeLitPeeled M g isNot mul l).news < 2 ^ esize l := by
  cases l
  case distinct args =>
    cases args with
    | nil =>
      have h0 : linearizeLitPeeled M g isNot mul (Expr.distinct []) = ⟨g, [], false⟩ := rfl
      rw [h0]
      simpa [pot_nil] using pow2_pos (esize (Expr.distinct []))
    | cons a0 rest =>
      rw [linearizeLitPeeled]
      by_cases ha : isArith a0 = true
      · rw [if_pos ha]
        cases isNot with
        | true =>
          rw [if_pos rfl]
          rcases hf : findEqPair M [] (a0 :: rest) with _ | pr
          · simpa [pot_nil] using pow2_pos (esize (Expr.distinct (a0 :: rest)))
          · show pot (submitIneq M g mul pr.1 pr.2 IneqType.eq).news <
              2 ^ esize (Expr.distinct (a0 :: rest))
            obtain ⟨hm1, hm2⟩ := findEqPair_mem M [] (a0 :: rest) pr.1 pr.2 (by
              rw [hf])
            have hm2a : pr.2 ∈ a0 :: rest := by
              rcases hm2 with h | h
              · exact h
              · simp at h
            have hs1 := esize_le_of_mem hm1
            have hs2 := esize_le_of_mem hm2a
            have h := pot_news_submitIneq M g mul pr.1 pr.2 .eq
            set S := esizeList (a0 :: rest) with hS
            have hS2 : 2 ≤ S := by
              have := esize_pos a0
              simp only [esizeList, hS]
              omega
            have hp1 : (2 : ℕ) ^ esize pr.1 ≤ 2 ^ (S - 1) := pow2_mono (by omega)
            have hp2 : (2 : ℕ) ^ esize pr.2 ≤ 2 ^ (S - 1) := pow2_mono (by omega)
            have hSS : (2 : ℕ) ^ S = 2 * 2 ^ (S - 1) := by
              conv_lhs => rw [show S = (S - 1) + 1 by omega]
              rw [pow_succ]
              ring
            have hgoal : esize (Expr.distinct (a0 :: rest)) = 1 + S := by
              simp only [esize, hS]
            rw [hgoal]
            have hSS2 : (2 : ℕ) ^ (1 + S) = 2 * 2 ^ S := by
              rw [pow_add]
              ring
            omega
        | false =>
          rw [if_neg (by simp)]
          have hperm : (List.insertionSort (fun p q : Expr × ℚ => p.2 ≤ q.2)
              ((a0 :: rest).map (fun a => (a, evalT M a)))).Perm
              ((a0 :: rest).map (fun a => (a, evalT M a))) :=
            List.perm_insertionSort _ _
          have hpermf := hperm.map Prod.fst
          have hsum : esizeList ((List.insertionSort (fun p q : Expr × ℚ => p.2 ≤ q.2)
              ((a0 :: rest).map (fun a => (a, evalT M a)))).map Prod.fst) =
              esizeList (((a0 :: rest).map (fun a => (a, evalT M a))).map Prod.fst) := by
            rw [esizeList_eq_sum, esizeList_eq_sum]
            exact (hpermf.map (fun e => 1 + esize e)).sum_eq
          have hid : ∀ l : List Expr, (l.map (fun a => (a, evalT M a))).map Prod.fst = l := by
            intro l
            induction l with
            | nil => rfl
            | cons x xs ih => simp only [List.map_cons, ih]
          have h := pot_news_distinctPairs M g (List.insertionSort
            (fun p q : Expr × ℚ => p.2 ≤ q.2) ((a0 :: rest).map (fun a => (a, evalT M a))))
          rw [hsum, hid (a0 :: rest)] at h
          have hgoal : esize (Expr.distinct (a0 :: rest)) = esizeList (a0 :: rest) + 1 := by
            simp only [esize]
            omega
          rw [hgoal]
          exact h
      · rw [if_neg ha]
        simpa [pot_nil] using pow2_pos (esize (Expr.distinct (a0 :: rest)))
  all_goals exact pot_news_linearizeLitCore M g isNot mul _

theorem pot_news_linearizeLit (M : Model) (g : GState) (lit : Expr) :
    pot (linearizeLit M g lit).news < 2 ^ esize lit := by
  cases lit
  case not l =>
    have h0 : linearizeLit M g (Expr.not l) = linearizeLitPeeled M g true (-1) l := rfl
    rw [h0]
    have h := pot_news_linearizeLitPeeled M g true (-1) l
    have hm := pow2_mono (show esize l ≤ esize (Expr.not l) by simp only [esize]; omega)
    omega
  all_goals exact pot_news_linearizeLitPeeled M g false 1 _

/-- The loop of the projection driver over the literal vector: linearize
each literal in turn; literals the linearizer gives up on are compacted to
the front (the residue); guard literals pushed during linearization are
appended to the end of the vector and picked up by the same loop. -/
def runLits (M : Model) : GState → List Expr → List Expr → GState × List Expr
  | g, [], residue => (g, residue)
  | g, f :: rest, residue =>
    let r := linearizeLit M g f
    if r.ok then runLits M r.g (rest ++ r.news) residue
    else runLits M r.g (rest ++ r.news) (residue ++ [f])
termination_by _ pending _ => pot pending
decreasing_by
  all_goals simp only [pot_cons, pot_append]
  all_goals (have h := pot_news_linearizeLit M g f; omega)

/-- Result of the projection entry point: the surviving variable list and
the mutated literal list. -/
structure ProjOut where
  vars : List Expr
  fmls : List Expr

/-- The projection entry point `operator()(model&, app_ref_vector&,
expr_ref_vector&)`.  The external engine steps `project` and
`get_live_rows` are a parameter: an oracle mapping the built engine state
and the ids to eliminate to the surviving rows (the spec fixes only their
contract, stated as a hypothesis of the theorems).  The driver: return
unchanged when no variable is arithmetic; linearize the literal vector
(keeping residue); register every arithmetic variable still missing from
`tids` with its model value; mark the residue roots, and the sub-terms of
every engine term that is not one of the variables; eliminate exactly the
arithmetic variables left unmarked, keeping the others; lift the surviving
rows and append them to the residue. -/
def projectOp (oracle : Mbo → List ℕ → List Row) (M : Model) (vars : List Expr)
    (fmls : List Expr) : ProjOut :=
  if ¬ vars.any (fun v => isArith v) then ⟨vars, fmls⟩
  else
    let st := runLits M ⟨Mbo.empty, []⟩ fmls []
    let g1 := st.1
    let residue := st.2
    let g2 := vars.foldl (fun g v =>
      if isArith v = true ∧ lookupTid g.tids v = none then
        let p := g.mbo.addVar (evalT M v)
        ⟨p.1, g.tids ++ [(v, p.2)]⟩
      else g) g1
    let fmlsMark := g2.tids.foldl (fun mk p =>
      if p.1 ∈ vars then mk else markRec mk p.1) residue
    let realVars := (vars.filter (fun v =>
      isArith v && !(decide (v ∈ fmlsMark)))).map (fun v => (lookupTid g2.tids v).getD 0)
    let keptVars := vars.filter (fun v => !(isArith v && !(decide (v ∈ fmlsMark))))
    let rows := oracle g2.mbo realVars
    ⟨keptVars, residue ++ rows.filterMap (liftRow (index2expr g2.tids))⟩

/-- Value returned by the engine maximize call.  Modelled from the spec:
either `+∞` or a rational together with an infinitesimal offset; the
accessor for the rational part is total. -/
structure InfEps where
  isFinite : Bool
  rat : ℚ
  eps : ℚ

/-- The model update of the optimizer driver: every registered engine term
that is an uninterpreted constant has its interpretation replaced by the
engine value of its id (`register_decl`); other terms are skipped. -/
def updateModel (M : Model) (tids : List (Expr × ℕ)) (engineVal : ℕ → ℚ) : Model :=
  tids.foldl (fun m p =>
    match p.1 with
    | .atom n => { m with aval := fun i => if i = n then engineVal p.2 else m.aval i }
    | _ => m) M

/-- Result of the optimizer driver: the engine value, the non-strict and
strict witness bounds, and the updated model. -/
structure MaxOut where
  value : InfEps
  ge : Expr
  gt : Expr
  mdl : Model

/-- The optimizer driver `imp::maximize`: linearize the objective and set
it on the engine; linearize a copy of the baseline literals (pushed guards
included, residue ignored); ask the engine for the maximum; update the
model with the engine values of the uninterpreted constants; emit the
witness bounds `(ge, gt)` by the three-way case split on the value.  The
engine maximize and variable values are oracle parameters, and the host
evaluator used for `M(t)` is modelled as evaluation in the updated model
(the evaluator itself is an external collaborator). -/
def maximize (oracleVal : Mbo → InfEps) (oracleGet : Mbo → ℕ → ℚ) (M : Model)
    (fmls0 : List Expr) (t : Expr) : MaxOut :=
  let r := linearizeTerm M 1 t ⟨Mbo.empty, []⟩ ⟨[], 0⟩
  let ext := extractCoefficients M r.g r.acc.ts
  let g2 : GState := { ext.1 with mbo := ext.1.mbo.setObjective ext.2 r.acc.c }
  let st := runLits M g2 (fmls0 ++ r.news) []
  let g3 := st.1
  let value := oracleVal g3.mbo
  let M2 := updateModel M g3.tids (oracleGet g3.mbo)
  let val : Expr := .num value.rat
  let tval : Expr := .num (evalT M2 t)
  if !value.isFinite then
    ⟨value, .ge t tval, .ff, M2⟩
  else if value.eps < 0 then
    ⟨value, .ge t tval, .ge t val, M2⟩
  else
    ⟨value, .ge t val, .gt t val, M2⟩

/-! Semantics of the accumulator: the constant plus the valuation of the
`term → coefficient` map tracks `mul` times the valuation of the region of
the term already folded in. -/

/-- Valuation of a `term → coefficient` map in a model. -/
def accSum (M : Model) (ts : List (Expr × ℚ)) : ℚ :=
  (ts.map (fun p => p.2 * evalT M p.1)).sum

theorem insertMul_accSum (M : Model) (x : Expr) (v : ℚ) (ts : List (Expr × ℚ)) :
    accSum M (insertMul x v ts) = accSum M ts + v * evalT M x := by
  induction ts with
  | nil => simp [insertMul, accSum]
  | cons p rest ih =>
    rcases p with ⟨y, w⟩
    rw [insertMul]
    by_cases h : y = x
    · rw [if_pos h]
      subst h
      simp [accSum]
      ring
    · rw [if_neg h]
      simp only [accSum, List.map_cons, List.sum_cons] at ih ⊢
      rw [ih]
      ring

mutual

theorem isNumeral_eval : ∀ (M : Model) (t : Expr) (r : ℚ),
    isNumeral t = some r → evalT M t = r
  | M, .num q, r, h => by
    rw [isNumeral] at h
    cases h
    rw [evalT]
  | M, .neg t1, r, h => by
    rw [isNumeral] at h
    rcases hh : isNumeral t1 with _ | r1 <;> rw [hh] at h
    · cases h
    · simp only [Option.some.injEq] at h
      have := isNumeral_eval M t1 r1 hh
      rw [evalT, this, ← h]
  | M, .mul a b, r, h => by
    rw [isNumeral] at h
    rcases h1 : isNumeral a with _ | r1 <;> rw [h1] at h
    · cases h
    · rcases h2 : isNumeral b with _ | r2 <;> rw [h2] at h
      · cases h
      · simp only [Option.some.injEq] at h
        have e1 := isNumeral_eval M a r1 h1
        have e2 := isNumeral_eval M b r2 h2
        rw [evalT, e1, e2, ← h]
  | M, .add l, r, h => by
    rw [isNumeral] at h
    have := isNumeralSum_eval M l r h
    rw [evalT, this]
  | M, .sub a b, r, h => by
    rw [isNumeral] at h
    rcases h1 : isNumeral a with _ | r1 <;> rw [h1] at h
    · cases h
    · rcases h2 : isNumeral b with _ | r2 <;> rw [h2] at h
      · cases h
      · simp only [Option.some.injEq] at h
        have e1 := isNumeral_eval M a r1 h1
        have e2 := isNumeral_eval M b r2 h2
        rw [evalT, e1, e2, ← h]
  | M, .atom n, r, h => Option.noConfusion h
  | M, .emod a b, r, h => Option.noConfusion h
  | M, .ite a b c, r, h => Option.noConfusion h
  | M, .le a b, r, h => Option.noConfusion h
  | M, .lt a b, r, h => Option.noConfusion h
  | M, .ge a b, r, h => Option.noConfusion h
  | M, .gt a b, r, h => Option.noConfusion h
  | M, .eq a b, r, h => Option.noConfusion h
  | M, .distinct l, r, h => Option.noConfusion h
  | M, .not a, r, h => Option.noConfusion h
  | M, .ff, r, h => Option.noConfusion h
  | M, .fapp n l, r, h => Option.noConfusion h
  | M, .papp n l, r, h => Option.noConfusion h
  | M, .batom n, r, h => Option.noConfusion h
termination_by structural _ t _ _ => t

theorem isNumeralSum_eval : ∀ (M : Model) (l : List Expr) (r : ℚ),
    isNumeralSum l = some r → evalTSum M l = r
  | M, [], r, h => by
    rw [isNumeralSum] at h
    cases h
    rw [evalTSum]
  | M, x :: xs, r, h => by
    rw [isNumeralSum] at h
    rcases h1 : isNumeral x with _ | r1 <;> rw [h1] at h
    · cases h
    · rcases h2 : isNumeralSum xs with _ | r2 <;> rw [h2] at h
      · cases h
      · simp only [Option.some.injEq] at h
        have e1 := isNumeral_eval M x r1 h1
        have e2 := isNumeralSum_eval M xs r2 h2
        rw [evalTSum, e1, e2, ← h]
termination_by structural _ l _ _ => l

end

theorem mkNot_evalF (M : Model) (e : Expr) : evalF M (mkNot e) = !evalF M e := by
  cases e <;> simp [mkNot, evalF]

mutual

theorem linearizeTerm_sem :
    ∀ (M : Model) (mul : ℚ) (t : Expr) (g : GState) (acc : Accum),
      (linearizeTerm M mul t g acc).acc.c + accSum M (linearizeTerm M mul t g acc).acc.ts =
        acc.c + accSum M acc.ts + mul * evalT M t
  | M, mul, .mul t1 t2, g, acc => by
    rw [linearizeTerm]
    rcases h1 : isNumeral t1 with _ | k
    · rcases h2 : isNumeral t2 with _ | k
      · simp only [insertMul_accSum]
        ring
      · have ih := linearizeTerm_sem M (mul * k) t1 g acc
        have e2 := isNumeral_eval M t2 k h2
        rw [ih, evalT, e2]
        ring
    · have ih := linearizeTerm_sem M (mul * k) t2 g acc
      have e1 := isNumeral_eval M t1 k h1
      rw [ih, evalT, e1]
      ring
  | M, mul, .add l, g, acc => by
    rw [linearizeTerm]
    have ih := linearizeTermList_sem M mul l g acc
    rw [ih, evalT]
  | M, mul, .sub t1 t2, g, acc => by
    rw [linearizeTerm]
    have ih2 := linearizeTerm_sem M (-mul) t2
      (linearizeTerm M mul t1 g acc).g (linearizeTerm M mul t1 g acc).acc
    have ih1 := linearizeTerm_sem M mul t1 g acc
    rw [ih2, ih1, evalT]
    ring
  | M, mul, .neg t1, g, acc => by
    rw [linearizeTerm]
    have ih := linearizeTerm_sem M (-mul) t1 g acc
    rw [ih, evalT]
    ring
  | M, mul, .num k, g, acc => by
    rw [linearizeTerm]
    rw [evalT]
    ring
  | M, mul, .ite t1 t2 t3, g, acc => by
    rw [linearizeTerm]
    by_cases hg : evalF M t1 = true
    · simp only [hg, if_true]
      have ih := linearizeTerm_sem M mul t2 g acc
      rw [ih, evalT, if_pos hg]
    · simp only [hg, Bool.false_eq_true, if_false]
      have ih := linearizeTerm_sem M mul t3 g acc
      rw [ih, evalT, if_neg hg]
  | M, mul, .emod t1 t2, g, acc => by
    rw [linearizeTerm]
    rcases h1 : isNumeral t2 with _ | k
    · simp only [insertMul_accSum]
      ring
    · ring
  | M, mul, .atom n, g, acc => by
    simp only [linearizeTerm, insertMul_accSum]
    ring
  | M, mul, .le a b, g, acc => by
    simp only [linearizeTerm, insertMul_accSum]
    ring
  | M, mul, .lt a b, g, acc => by
    simp only [linearizeTerm, insertMul_accSum]
    ring
  | M, mul, .ge a b, g, acc => by
    simp only [linearizeTerm, insertMul_accSum]
    ring
  | M, mul, .gt a b, g, acc => by
    simp only [linearizeTerm, insertMul_accSum]
    ring
  | M, mul, .eq a b, g, acc => by
    simp only [linearizeTerm, insertMul_accSum]
    ring
  | M, mul, .distinct l, g, acc => by
    simp only [linearizeTerm, insertMul_accSum]
    ring
  | M, mul, .not a, g, acc => by
    simp only [linearizeTerm, insertMul_accSum]
    ring
  | M, mul, .ff, g, acc => by
    simp only [linearizeTerm, insertMul_accSum]
    ring
  | M, mul, .fapp n l, g, acc => by
    simp only [linearizeTerm, insertMul_accSum]
    ring
  | M, mul, .papp n l, g, acc => by
    simp only [linearizeTerm, insertMul_accSum]
    ring
  | M, mul, .batom n, g, acc => by
    simp only [linearizeTerm, insertMul_accSum]
    ring
termination_by structural _ _ t _ _ => t

theorem linearizeTermList_sem :
    ∀ (M : Model) (mul : ℚ) (l : List Expr) (g : GState) (acc : Accum),
      (linearizeTermList M mul l g acc).acc.c +
          accSum M (linearizeTermList M mul l g acc).acc.ts =
        acc.c + accSum M acc.ts + mul * evalTSum M l
  | M, mul, [], g, acc => by
    rw [linearizeTermList, evalTSum]
    ring
  | M, mul, x :: xs, g, acc => by
    rw [linearizeTermList]
    have ih2 := linearizeTermList_sem M mul xs
      (linearizeTerm M mul x g acc).g (linearizeTerm M mul x g acc).acc
    have ih1 := linearizeTerm_sem M mul x g acc
    rw [ih2, ih1, evalTSum]
    ring
termination_by structural _ _ l _ _ => l

end

mutual

theorem linearizeTerm_news_true :
    ∀ (M : Model) (mul : ℚ) (t : Expr) (g : GState) (acc : Accum),
      ∀ f ∈ (linearizeTerm M mul t g acc).news, evalF M f = true
  | M, mul, .mul t1 t2, g, acc => by
    rw [linearizeTerm]
    rcases h1 : isNumeral t1 with _ | k
    · rcases h2 : isNumeral t2 with _ | k
      · intro f hf
        cases hf
      · exact linearizeTerm_news_true M (mul * k) t1 g acc
    · exact linearizeTerm_news_true M (mul * k) t2 g acc
  | M, mul, .add l, g, acc => by
    rw [linearizeTerm]
    exact linearizeTermList_news_true M mul l g acc
  | M, mul, .sub t1 t2, g, acc => by
    rw [linearizeTerm]
    intro f hf
    rcases List.mem_append.mp hf with h | h
    · exact linearizeTerm_news_true M mul t1 g acc f h
    · exact linearizeTerm_news_true M (-mul) t2
        (linearizeTerm M mul t1 g acc).g (linearizeTerm M mul t1 g acc).acc f h
  | M, mul, .neg t1, g, acc => by
    rw [linearizeTerm]
    exact linearizeTerm_news_true M (-mul) t1 g acc
  | M, mul, .num k, g, acc => by
    rw [linearizeTerm]
    intro f hf
    cases hf
  | M, mul, .ite t1 t2 t3, g, acc => by
    rw [linearizeTerm]
    by_cases hg : evalF M t1 = true
    · simp only [hg, if_true]
      intro f hf
      rcases List.mem_append.mp hf with h | h
      · exact linearizeTerm_news_true M mul t2 g acc f h
      · rcases List.mem_singleton.mp h with rfl
        exact hg
    · simp only [hg, Bool.false_eq_true, if_false]
      intro f hf
      rcases List.mem_cons.mp hf with h | h
      · subst h
        rw [mkNot_evalF]
        cases hv : evalF M t1
        · rfl
        · exact absurd hv hg
      · exact linearizeTerm_news_true M mul t3 g acc f h
  | M, mul, .emod t1 t2, g, acc => by
    rw [linearizeTerm]
    rcases h1 : isNumeral t2 with _ | k
    · intro f hf
      cases hf
    · exact linearizeTerm_news_true M 1 t1 g ⟨[], -(evalT M (Expr.emod t1 t2))⟩
  | M, mul, .atom n, g, acc => by
    simp only [linearizeTerm]; intro f hf; cases hf
  | M, mul, .le a b, g, acc => by
    simp only [linearizeTerm]; intro f hf; cases hf
  | M, mul, .lt a b, g, acc => by
    simp only [linearizeTerm]; intro f hf; cases hf
  | M, mul, .ge a b, g, acc => by
    simp only [linearizeTerm]; intro f hf; cases hf
  | M, mul, .gt a b, g, acc => by
    simp only [linearizeTerm]; intro f hf; cases hf
  | M, mul, .eq a b, g, acc => by
    simp only [linearizeTerm]; intro f hf; cases hf
  | M, mul, .distinct l, g, acc => by
    simp only [linearizeTerm]; intro f hf; cases hf
  | M, mul, .not a, g, acc => by
    simp only [linearizeTerm]; intro f hf; cases hf
  | M, mul, .ff, g, acc => by
    simp only [linearizeTerm]; intro f hf; cases hf
  | M, mul, .fapp n l, g, acc => by
    simp only [linearizeTerm]; intro f hf; cases hf
  | M, mul, .papp n l, g, acc => by
    simp only [linearizeTerm]; intro f hf; cases hf
  | M, mul, .batom n, g, acc => by
    simp only [linearizeTerm]; intro f hf; cases hf
termination_by structural _ _ t _ _ => t

theorem linearizeTermList_news_true :
    ∀ (M : Model) (mul : ℚ) (l : List Expr) (g : GState) (acc : Accum),
      ∀ f ∈ (linearizeTermList M mul l g acc).news, evalF M f = true
  | M, mul, [], g, acc => by
    rw [linearizeTermList]
    intro f hf
    cases hf
  | M, mul, x :: xs, g, acc => by
    rw [linearizeTermList]
    intro f hf
    rcases List.mem_append.mp hf with h | h
    · exact linearizeTerm_news_true M mul x g acc f h
    · exact linearizeTermList_news_true M mul xs
        (linearizeTerm M mul x g acc).g (linearizeTerm M mul x g acc).acc f h
termination_by structural _ _ l _ _ => l

end

/-! Well-formedness of the shared state: every registered term has an id
inside the engine registry, seeded with the model value of the term; every
engine id is registered; an id determines its term.  Every mutation of the
registry in the core is an `add-var` paired with a `tids` insertion, so
the invariant is preserved everywhere. -/

/-- The invariant, phrased on the seed registry and the `tids` map. -/
def InvVT (M : Model) (vs : List ℚ) (tids : List (Expr × ℕ)) : Prop :=
  (∀ p ∈ tids, p.2 < vs.length ∧ vs.getD p.2 0 = evalT M p.1) ∧
  (∀ id, id < vs.length → ∃ p ∈ tids, p.2 = id) ∧
  (∀ p ∈ tids, ∀ q ∈ tids, p.2 = q.2 → p.1 = q.1)

/-- The invariant of a shared state. -/
def Inv (M : Model) (g : GState) : Prop := InvVT M g.mbo.vars g.tids

theorem Mbo.vars_addConstraint (m : Mbo) (coeffs : List MboVar) (c : ℚ) (ty : IneqType) :
    (m.addConstraint coeffs c ty).vars = m.vars := rfl

theorem Mbo.vars_addDivides (m : Mbo) (coeffs : List MboVar) (c k : ℚ) :
    (m.addDivides coeffs c k).vars = m.vars := rfl

theorem Mbo.vars_setObjective (m : Mbo) (coeffs : List MboVar) (c : ℚ) :
    (m.setObjective coeffs c).vars = m.vars := rfl

theorem invVT_extend (M : Model) (vs : List ℚ) (tids : List (Expr × ℕ)) (t : Expr)
    (h : InvVT M vs tids) : InvVT M (vs ++ [evalT M t]) (tids ++ [(t, vs.length)]) := by
  obtain ⟨h1, h2, h3⟩ := h
  refine ⟨?_, ?_, ?_⟩
  · intro p hp
    rcases List.mem_append.mp hp with hp | hp
    · obtain ⟨hlt, hval⟩ := h1 p hp
      refine ⟨by simp; omega, ?_⟩
      rw [List.getD_append _ _ _ _ hlt]
      exact hval
    · rcases List.mem_singleton.mp hp with rfl
      refine ⟨by simp, ?_⟩
      simp [List.getD_append_right]
  · intro id hid
    simp only [List.length_append, List.length_singleton] at hid
    by_cases hltv : id < vs.length
    · obtain ⟨p, hp, hpe⟩ := h2 id hltv
      exact ⟨p, List.mem_append_left _ hp, hpe⟩
    · refine ⟨(t, vs.length), List.mem_append_right _ (List.mem_singleton_self _), ?_⟩
      omega
  · intro p hp q hq hpq
    rcases List.mem_append.mp hp with hp | hp <;> rcases List.mem_append.mp hq with hq | hq
    · exact h3 p hp q hq hpq
    · rcases List.mem_singleton.mp hq with rfl
      obtain ⟨hlt, _⟩ := h1 p hp
      omega
    · rcases List.mem_singleton.mp hp with rfl
      obtain ⟨hlt, _⟩ := h1 q hq
      omega
    · rcases List.mem_singleton.mp hp with rfl
      rcases List.mem_singleton.mp hq with rfl
      rfl

theorem extractCoefficients_inv :
    ∀ (M : Model) (g : GState) (ts : List (Expr × ℚ)),
      Inv M g → Inv M (extractCoefficients M g ts).1
  | M, g, [], h => by
    rw [extractCoefficients]
    exact h
  | M, g, (v, q) :: rest, h => by
    rw [extractCoefficients]
    rcases hl : lookupTid g.tids v with _ | id
    · have hstep : Inv M ⟨(g.mbo.addVar (evalT M v)).1, g.tids ++ [(v, (g.mbo.addVar (evalT M v)).2)]⟩ := by
        have := invVT_extend M g.mbo.vars g.tids v h
        exact this
      exact extractCoefficients_inv M _ rest hstep
    · exact extractCoefficients_inv M g rest h

mutual

theorem linearizeTerm_inv :
    ∀ (M : Model) (mul : ℚ) (t : Expr) (g : GState) (acc : Accum),
      Inv M g → Inv M (linearizeTerm M mul t g acc).g
  | M, mul, .mul t1 t2, g, acc, h => by
    rw [linearizeTerm]
    rcases h1 : isNumeral t1 with _ | k
    · rcases h2 : isNumeral t2 with _ | k
      · exact h
      · exact linearizeTerm_inv M (mul * k) t1 g acc h
    · exact linearizeTerm_inv M (mul * k) t2 g acc h
  | M, mul, .add l, g, acc, h => by
    rw [linearizeTerm]
    exact linearizeTermList_inv M mul l g acc h
  | M, mul, .sub t1 t2, g, acc, h => by
    rw [linearizeTerm]
    exact linearizeTerm_inv M (-mul) t2 _ _ (linearizeTerm_inv M mul t1 g acc h)
  | M, mul, .neg t1, g, acc, h => by
    rw [linearizeTerm]
    exact linearizeTerm_inv M (-mul) t1 g acc h
  | M, mul, .num k, g, acc, h => by
    rw [linearizeTerm]
    exact h
  | M, mul, .ite t1 t2 t3, g, acc, h => by
    rw [linearizeTerm]
    by_cases hg : evalF M t1 = true
    · simp only [hg, if_true]
      exact linearizeTerm_inv M mul t2 g acc h
    · simp only [hg, Bool.false_eq_true, if_false]
      exact linearizeTerm_inv M mul t3 g acc h
  | M, mul, .emod t1 t2, g, acc, h => by
    rw [linearizeTerm]
    rcases h1 : isNumeral t2 with _ | k
    · exact h
    · have hin := linearizeTerm_inv M 1 t1 g ⟨[], -(evalT M (Expr.emod t1 t2))⟩ h
      have hex := extractCoefficients_inv M _
        (linearizeTerm M 1 t1 g ⟨[], -(evalT M (Expr.emod t1 t2))⟩).acc.ts hin
      exact hex
  | M, mul, .atom n, g, acc, h => by
    simp only [linearizeTerm]; exact h
  | M, mul, .le a b, g, acc, h => by
    simp only [linearizeTerm]; exact h
  | M, mul, .lt a b, g, acc, h => by
    simp only [linearizeTerm]; exact h
  | M, mul, .ge a b, g, acc, h => by
    simp only [linearizeTerm]; exact h
  | M, mul, .gt a b, g, acc, h => by
    simp only [linearizeTerm]; exact h
  | M, mul, .eq a b, g, acc, h => by
    simp only [linearizeTerm]; exact h
  | M, mul, .distinct l, g, acc, h => by
    simp only [linearizeTerm]; exact h
  | M, mul, .not a, g, acc, h => by
    simp only [linearizeTerm]; exact h
  | M, mul, .ff, g, acc, h => by
    simp only [linearizeTerm]; exact h
  | M, mul, .fapp n l, g, acc, h => by
    simp only [linearizeTerm]; exact h
  | M, mul, .papp n l, g, acc, h => by
    simp only [linearizeTerm]; exact h
  | M, mul, .batom n, g, acc, h => by
    simp only [linearizeTerm]; exact h
termination_by structural _ _ t _ _ _ => t

theorem linearizeTermList_inv :
    ∀ (M : Model) (mul : ℚ) (l : List Expr) (g : GState) (acc : Accum),
      Inv M g → Inv M (linearizeTermList M mul l g acc).g
  | M, mul, [], g, acc, h => by
    rw [linearizeTermList]
    exact h
  | M, mul, x :: xs, g, acc, h => by
    rw [linearizeTermList]
    exact linearizeTermList_inv M mul xs _ _ (linearizeTerm_inv M mul x g acc h)
termination_by structural _ _ l _ _ _ => l

end

theorem submitIneq_inv (M : Model) (g : GState) (mul : ℚ) (e1 e2 : Expr) (ty : IneqType)
    (h : Inv M g) : Inv M (submitIneq M g mul e1 e2 ty).g := by
  rw [submitIneq]
  have h1 := linearizeTerm_inv M mul e1 g ⟨[], 0⟩ h
  have h2 := linearizeTerm_inv M (-mul) e2 (linearizeTerm M mul e1 g ⟨[], 0⟩).g
    (linearizeTerm M mul e1 g ⟨[], 0⟩).acc h1
  have h3 := extractCoefficients_inv M
    (linearizeTerm M (-mul) e2 (linearizeTerm M mul e1 g ⟨[], 0⟩).g
      (linearizeTerm M mul e1 g ⟨[], 0⟩).acc).g
    (linearizeTerm M (-mul) e2 (linearizeTerm M mul e1 g ⟨[], 0⟩).g
      (linearizeTerm M mul e1 g ⟨[], 0⟩).acc).acc.ts h2
  exact h3

theorem linearizeLitCore_inv (M : Model) (g : GState) (isNot : Bool) (mul : ℚ) (l : Expr)
    (h : Inv M g) : Inv M (linearizeLitCore M g isNot mul l).g := by
  cases l
  case le e1 e2 => exact submitIneq_inv M g mul e1 e2 _ h
  case ge a b => exact submitIneq_inv M g mul b a _ h
  case lt e1 e2 => exact submitIneq_inv M g mul e1 e2 _ h
  case gt a b => exact submitIneq_inv M g mul b a _ h
  case eq e1 e2 =>
    rw [linearizeLitCore]
    by_cases hc1 : (!isNot && isArith e1) = true
    · rw [if_pos hc1]
      exact submitIneq_inv M g mul e1 e2 .eq h
    · rw [if_neg hc1]
      by_cases hc2 : (isNot && isArith e1) = true
      · rw [if_pos hc2]
        by_cases hsw : evalT M e1 < evalT M e2
        · simp only [hsw, if_true]
          exact submitIneq_inv M g mul e2 e1 .lt h
        · simp only [hsw, if_false]
          exact submitIneq_inv M g mul e1 e2 .lt h
      · rw [if_neg hc2]
        exact h
  all_goals exact h

theorem distinctPairs_inv :
    ∀ (M : Model) (g : GState) (s : List (Expr × ℚ)), Inv M g → Inv M (distinctPairs M g s).g
  | M, g, [], h => h
  | M, g, [p], h => h
  | M, g, p :: q :: rest, h => by
    rw [distinctPairs]
    have h1 := linearizeLitCore_inv M g false 1 (.lt p.1 q.1) h
    by_cases hok : (linearizeLitCore M g false 1 (.lt p.1 q.1)).ok = true
    · simp only [hok, if_true]
      exact distinctPairs_inv M _ (q :: rest) h1
    · simp only [hok, Bool.false_eq_true, if_false]
      exact h1
termination_by _ _ s => s.length

theorem linearizeLitPeeled_inv (M : Model) (g : GState) (isNot : Bool) (mul : ℚ) (l : Expr)
    (h : Inv M g) : Inv M (linearizeLitPeeled M g isNot mul l).g := by
  cases l
  case distinct args =>
    cases args with
    | nil => exact h
    | cons a0 rest =>
      rw [linearizeLitPeeled]
      by_cases ha : isArith a0 = true
      · rw [if_pos ha]
        cases isNot with
        | true =>
          rw [if_pos rfl]
          rcases hf : findEqPair M [] (a0 :: rest) with _ | pr
          · exact extractCoefficients_inv M g [] h
          · exact submitIneq_inv M g mul pr.1 pr.2 .eq h
        | false =>
          rw [if_neg (by simp)]
          exact distinctPairs_inv M g _ h
      · rw [if_neg ha]
        exact h
  all_goals exact linearizeLitCore_inv M g isNot mul _ h

theorem linearizeLit_inv (M : Model) (g : GState) (lit : Expr) (h : Inv M g) :
    Inv M (linearizeLit M g lit).g := by
  cases lit
  case not l => exact linearizeLitPeeled_inv M g true (-1) l h
  all_goals exact linearizeLitPeeled_inv M g false 1 _ h

theorem submitIneq_news_true (M : Model) (g : GState) (mul : ℚ) (e1 e2 : Expr) (ty : IneqType) :
    ∀ f ∈ (submitIneq M g mul e1 e2 ty).news, evalF M f = true := by
  rw [submitIneq]
  intro f hf
  rcases List.mem_append.mp hf with h | h
  · exact linearizeTerm_news_true M mul e1 g ⟨[], 0⟩ f h
  · exact linearizeTerm_news_true M (-mul) e2 (linearizeTerm M mul e1 g ⟨[], 0⟩).g
      (linearizeTerm M mul e1 g ⟨[], 0⟩).acc f h

theorem linearizeLitCore_news_true (M : Model) (g : GState) (isNot : Bool) (mul : ℚ)
    (l : Expr) : ∀ f ∈ (linearizeLitCore M g isNot mul l).news, evalF M f = true := by
  cases l
  case le e1 e2 => exact submitIneq_news_true M g mul e1 e2 _
  case ge a b => exact submitIneq_news_true M g mul b a _
  case lt e1 e2 => exact submitIneq_news_true M g mul e1 e2 _
  case gt a b => exact submitIneq_news_true M g mul b a _
  case eq e1 e2 =>
    rw [linearizeLitCore]
    by_cases hc1 : (!isNot && isArith e1) = true
    · rw [if_pos hc1]
      exact submitIneq_news_true M g mul e1 e2 .eq
    · rw [if_neg hc1]
      by_cases hc2 : (isNot && isArith e1) = true
      · rw [if_pos hc2]
        by_cases hsw : evalT M e1 < evalT M e2
        · simp only [hsw, if_true]
          exact submitIneq_news_true M g mul e2 e1 .lt
        · simp only [hsw, if_false]
          exact submitIneq_news_true M g mul e1 e2 .lt
      · rw [if_neg hc2]
        intro f hf
        cases hf
  all_goals (intro f hf; cases hf)

theorem distinctPairs_news_true :
    ∀ (M : Model) (g : GState) (s : List (Expr × ℚ)),
      ∀ f ∈ (distinctPairs M g s).news, evalF M f = true
  | M, g, [] => by intro f hf; cases hf
  | M, g, [p] => by intro f hf; cases hf
  | M, g, p :: q :: rest => by
    rw [distinctPairs]
    by_cases hok : (linearizeLitCore M g false 1 (.lt p.1 q.1)).ok = true
    · simp only [hok, if_true]
      intro f hf
      rcases List.mem_append.mp hf with h | h
      · exact linearizeLitCore_news_true M g false 1 (.lt p.1 q.1) f h
      · exact distinctPairs_news_true M _ (q :: rest) f h
    · simp only [hok, Bool.false_eq_true, if_false]
      exact linearizeLitCore_news_true M g false 1 (.lt p.1 q.1)
termination_by _ _ s => s.length

theorem linearizeLitPeeled_news_true (M : Model) (g : GState) (isNot : Bool) (mul : ℚ)
    (l : Expr) : ∀ f ∈ (linearizeLitPeeled M g isNot mul l).news, evalF M f = true := by
  cases l
  case distinct args =>
    cases args with
    | nil => intro f hf; cases hf
    | cons a0 rest =>
      rw [linearizeLitPeeled]
      by_cases ha : isArith a0 = true
      · rw [if_pos ha]
        cases isNot with
        | true =>
          rw [if_pos rfl]
          rcases hf : findEqPair M [] (a0 :: rest) with _ | pr
          · intro f hf2; cases hf2
          · exact submitIneq_news_true M g mul pr.1 pr.2 .eq
        | false =>
          rw [if_neg (by simp)]
          exact distinctPairs_news_true M g _
      · rw [if_neg ha]
        intro f hf; cases hf
  all_goals exact linearizeLitCore_news_true M g isNot mul _

theorem linearizeLit_news_true (M : Model) (g : GState) (lit : Expr) :
    ∀ f ∈ (linearizeLit M g lit).news, evalF M f = true := by
  cases lit
  case not l => exact linearizeLitPeeled_news_true M g true (-1) l
  all_goals exact linearizeLitPeeled_news_true M g false 1 _

theorem runLits_inv :
    ∀ (M : Model) (g : GState) (pending residue : List Expr),
      Inv M g → Inv M (runLits M g pending residue).1
  | M, g, [], residue, h => by
    rw [runLits]
    exact h
  | M, g, f :: rest, residue, h => by
    rw [runLits]
    have h1 := linearizeLit_inv M g f h
    by_cases hok : (linearizeLit M g f).ok = true
    · simp only [hok, if_true]
      exact runLits_inv M _ _ residue h1
    · simp only [hok, Bool.false_eq_true, if_false]
      exact runLits_inv M _ _ (residue ++ [f]) h1
termination_by _ _ pending _ => pot pending
decreasing_by
  all_goals simp only [pot_cons, pot_append]
  all_goals (have h := pot_news_linearizeLit M g f; omega)

theorem runLits_residue_true :
    ∀ (M : Model) (g : GState) (pending residue : List Expr),
      (∀ f ∈ pending, evalF M f = true) → (∀ f ∈ residue, evalF M f = true) →
      ∀ f ∈ (runLits M g pending residue).2, evalF M f = true
  | M, g, [], residue, _, hres => by
    rw [runLits]
    exact hres
  | M, g, f :: rest, residue, hpen, hres => by
    rw [runLits]
    have hpen2 : ∀ x ∈ rest ++ (linearizeLit M g f).news, evalF M x = true := by
      intro x hx
      rcases List.mem_append.mp hx with h | h
      · exact hpen x (List.mem_cons_of_mem _ h)
      · exact linearizeLit_news_true M g f x h
    by_cases hok : (linearizeLit M g f).ok = true
    · simp only [hok, if_true]
      exact runLits_residue_true M _ _ residue hpen2 hres
    · simp only [hok, Bool.false_eq_true, if_false]
      refine runLits_residue_true M _ _ (residue ++ [f]) hpen2 ?_
      intro x hx
      rcases List.mem_append.mp hx with h | h
      · exact hres x h
      · rcases List.mem_singleton.mp h with rfl
        exact hpen x (List.mem_cons_self _ _)
termination_by _ _ pending _ => pot pending
decreasing_by
  all_goals simp only [pot_cons, pot_append]
  all_goals (have h := pot_news_linearizeLit M g f; omega)

/-- The variable-registration pass of the driver preserves the state
invariant: any variable still missing from `tids` is registered with an
engine variable seeded with its model value. -/
theorem regFold_inv (M : Model) :
    ∀ (vars : List Expr) (g : GState), Inv M g →
      Inv M (vars.foldl (fun g v =>
        if isArith v = true ∧ lookupTid g.tids v = none then
          let p := g.mbo.addVar (evalT M v)
          (⟨p.1, g.tids ++ [(v, p.2)]⟩ : GState)
        else g) g) := by
  intro vars
  induction vars with
  | nil => intro g h; exact h
  | cons v rest ih =>
    intro g h
    rw [List.foldl_cons]
    by_cases hc : isArith v = true ∧ lookupTid g.tids v = none
    · rw [if_pos hc]
      exact ih _ (invVT_extend M g.mbo.vars g.tids v h)
    · rw [if_neg hc]
      exact ih g h

/-! Satisfaction of engine rows and truth of lifted literals. -/

/-- Valuation of a coefficient vector under an assignment of engine
variable values. -/
def dotVal (ν : ℕ → ℚ) (coeffs : List MboVar) : ℚ :=
  (coeffs.map (fun v => v.coeff * ν v.id)).sum

/-- Satisfaction of an engine row under an assignment: the row states
`Σ coeffᵢ·xᵢ + coeff R 0`; a `mod` row states divisibility of that sum by
the modulus.  Modelled from the spec: this is the row meaning fixed by the
engine facade. -/
def rowSat (ν : ℕ → ℚ) (r : Row) : Prop :=
  match r.ty with
  | .le => dotVal ν r.vars + r.coeff ≤ 0
  | .lt => dotVal ν r.vars + r.coeff < 0
  | .eq => dotVal ν r.vars + r.coeff = 0
  | .mod => ratMod (dotVal ν r.vars + r.coeff) r.mod = 0

theorem dotVal_congr {f g : ℕ → ℚ} (vs : List MboVar)
    (hv : ∀ v ∈ vs, f v.id = g v.id) : dotVal f vs = dotVal g vs := by
  induction vs with
  | nil => rfl
  | cons v rest ih =>
    simp only [dotVal, List.map_cons, List.sum_cons] at ih ⊢
    rw [hv v (List.mem_cons_self _ _), ih (fun w hw => hv w (List.mem_cons_of_mem _ hw))]

theorem evalT_liftTerms (M : Model) (idx : ℕ → Expr) (vs : List MboVar) :
    evalTSum M (vs.map (fun w =>
        if w.coeff = 1 then idx w.id else .mul (.num w.coeff) (idx w.id))) =
      dotVal (fun id => evalT M (idx id)) vs := by
  induction vs with
  | nil => rfl
  | cons v rest ih =>
    simp only [List.map_cons, evalTSum, dotVal, List.sum_cons] at ih ⊢
    rw [ih]
    by_cases h1 : v.coeff = 1
    · rw [if_pos h1, h1]
      ring
    · rw [if_neg h1, evalT, evalT]

theorem evalT_addMatch (M : Model) (ts : List Expr) :
    evalT M (match ts with | [e] => e | _ => .add ts) = evalTSum M ts := by
  match ts with
  | [] => rw [evalT, evalTSum]
  | [e] => rw [evalTSum, evalTSum]; ring
  | a :: b :: rest => rw [evalT]

/-- Truth of a lifted literal: if the engine row is satisfied under an
assignment that agrees with the model value of each engine term, then the
literal `liftRow` builds for it is true in the model. -/
theorem liftRow_true (M : Model) (idx : ℕ → Expr) (ν : ℕ → ℚ) (r : Row) (e : Expr)
    (hlift : liftRow idx r = some e) (hsat : rowSat ν r)
    (hv : ∀ v ∈ r.vars, evalT M (idx v.id) = ν v.id) :
    evalF M e = true := by
  obtain ⟨vars, coeff, ty, mo⟩ := r
  cases vars with
  | nil => rw [liftRow] at hlift; cases hlift
  | cons v rest =>
    rw [liftRow] at hlift
    dsimp only at hlift
    by_cases hc : rest = [] ∧ v.coeff < 0 ∧ ty ≠ IneqType.mod
    · rw [if_pos hc] at hlift
      obtain ⟨hrest, hneg, hmod⟩ := hc
      subst hrest
      have hvv := hv v (List.mem_cons_self _ _)
      have ht : evalT M (if v.coeff = -1 then idx v.id
          else Expr.mul (.num (-v.coeff)) (idx v.id)) = -v.coeff * ν v.id := by
        by_cases h1 : v.coeff = -1
        · rw [if_pos h1, hvv, h1]
          ring

        · rw [if_neg h1, evalT, evalT, hvv]
      have hdot : dotVal ν [v] = v.coeff * ν v.id := by simp [dotVal]
      cases ty
      · simp only [Option.some.injEq] at hlift
        subst hlift
        rw [rowSat] at hsat
        dsimp only at hsat
        rw [hdot] at hsat
        rw [evalF, ht, evalT]
        simp only [decide_eq_true_eq]
        linarith
      · simp only [Option.some.injEq] at hlift
        subst hlift
        rw [rowSat] at hsat
        dsimp only at hsat
        rw [hdot] at hsat
        rw [evalF, ht, evalT]
        simp only [decide_eq_true_eq]
        linarith
      · simp only [Option.some.injEq] at hlift
        subst hlift
        rw [rowSat] at hsat
        dsimp only at hsat
        rw [hdot] at hsat
        rw [evalF, ht, evalT]
        simp only [decide_eq_true_eq]
        linarith
      · exact absurd rfl hmod
    · rw [if_neg hc] at hlift
      have hts := evalT_addMatch M ((v :: rest).map (fun w =>
        if w.coeff = 1 then idx w.id else .mul (.num w.coeff) (idx w.id)))
      rw [evalT_liftTerms M idx (v :: rest)] at hts
      rw [dotVal_congr (v :: rest) hv] at hts
      cases ty
      · simp only [Option.some.injEq] at hlift
        subst hlift
        rw [rowSat] at hsat
        dsimp only at hsat
        rw [evalF, hts, evalT]
        simp only [decide_eq_true_eq]
        linarith
      · simp only [Option.some.injEq] at hlift
        subst hlift
        rw [rowSat] at hsat
        dsimp only at hsat
        rw [evalF, hts, evalT]
        simp only [decide_eq_true_eq]
        linarith
      · simp only [Option.some.injEq] at hlift
        subst hlift
        rw [rowSat] at hsat
        dsimp only at hsat
        rw [evalF, hts, evalT]
        simp only [decide_eq_true_eq]
        linarith
      · simp only [Option.some.injEq] at hlift
        subst hlift
        rw [rowSat] at hsat
        dsimp only at hsat
        rw [evalF]
        simp only [decide_eq_true_eq]
        by_cases h0 : coeff ≠ 0
        · rw [if_pos h0]
          rw [evalT, evalT, evalT, evalT, hts, evalT]
          have harg : dotVal ν (v :: rest) - -coeff = dotVal ν (v :: rest) + coeff := by ring
          rw [harg, hsat]
        · rw [if_neg h0]
          rw [evalT, evalT, evalT, hts]
          have h00 : coeff = 0 := by tauto
          have harg : dotVal ν (v :: rest) = dotVal ν (v :: rest) + coeff := by
            rw [h00]; ring
          rw [harg, hsat]

/-- The `setx`-built reverse map sends an id to its registered term. -/
theorem index2expr_fold :
    ∀ (l : List (Expr × ℕ)) (f0 : ℕ → Expr) (id : ℕ) (t : Expr),
      (∀ q ∈ l, q.2 = id → q.1 = t) →
      (((t, id) ∈ l →
        l.foldl (fun f p => fun i => if i = p.2 then p.1 else f i) f0 id = t) ∧
       ((∀ q ∈ l, q.2 ≠ id) →
        l.foldl (fun f p => fun i => if i = p.2 then p.1 else f i) f0 id = f0 id)) := by
  intro l
  induction l with
  | nil =>
    intro f0 id t _
    exact ⟨fun h => absurd h (List.not_mem_nil _), fun _ => rfl⟩
  | cons p rest ih =>
    intro f0 id t hu
    have hu2 : ∀ q ∈ rest, q.2 = id → q.1 = t := fun q hq =>
      hu q (List.mem_cons_of_mem _ hq)
    rw [List.foldl_cons]
    constructor
    · intro hmem
      by_cases hex : ∃ q ∈ rest, q.2 = id
      · obtain ⟨q, hq, hqe⟩ := hex
        have hq1 : q.1 = t := hu2 q hq hqe
        have : (t, id) ∈ rest := by
          have : q = (t, id) := by
            rcases q with ⟨q1, q2⟩
            simp only at hq1 hqe
            rw [hq1, hqe]
          rw [← this]
          exact hq
        exact (ih _ id t hu2).1 this
      · push_neg at hex
        have hrw := (ih (fun i => if i = p.2 then p.1 else f0 i) id t hu2).2 hex
        rw [hrw]
        rcases List.mem_cons.mp hmem with h | h
        · have hpid : p.2 = id := by rw [← h]
          have hp1 : p.1 = t := by rw [← h]
          rw [if_pos hpid.symm, hp1]
        · exact absurd h (by
            intro hmm
            exact hex (t, id) hmm rfl)
    · intro hnone
      have hrw := (ih (fun i => if i = p.2 then p.1 else f0 i) id t hu2).2
        (fun q hq => hnone q (List.mem_cons_of_mem _ hq))
      rw [hrw]
      have hpid : p.2 ≠ id := hnone p (List.mem_cons_self _ _)
      rw [if_neg (fun hh => hpid hh.symm)]

theorem index2expr_of_inv (M : Model) (g : GState) (h : Inv M g) (t : Expr) (id : ℕ)
    (hmem : (t, id) ∈ g.tids) : index2expr g.tids id = t := by
  obtain ⟨_, _, h3⟩ := h
  have hu : ∀ q ∈ g.tids, q.2 = id → q.1 = t := by
    intro q hq hqe
    exact h3 q hq (t, id) hmem hqe
  exact (index2expr_fold g.tids (fun _ => .num 0) id t hu).1 hmem

/-- Under the invariant, the seed of every engine id is the model value of
the term the reverse map returns for it. -/
theorem seed_eq_eval (M : Model) (g : GState) (h : Inv M g) (id : ℕ)
    (hid : id < g.mbo.vars.length) :
    Mbo.seed g.mbo id = evalT M (index2expr g.tids id) := by
  obtain ⟨h1, h2, h3⟩ := h
  obtain ⟨p, hp, hpe⟩ := h2 id hid
  have hidx : index2expr g.tids id = p.1 := by
    apply index2expr_of_inv M g ⟨h1, h2, h3⟩ p.1 id
    have : p = (p.1, id) := by
      rcases p with ⟨p1, p2⟩
      simp only at hpe
      rw [hpe]
    rw [← this]
    exact hp
  obtain ⟨_, hval⟩ := h1 p hp
  rw [hidx, Mbo.seed, ← hpe, hval]

theorem inv_empty (M : Model) : Inv M ⟨Mbo.empty, []⟩ := by
  refine ⟨?_, ?_, ?_⟩
  · intro p hp
    cases hp
  · intro id hid
    simp [Mbo.empty] at hid
  · intro p hp
    cases hp

/-- Lifted literals of rows meeting the engine contract are true in the
model. -/
theorem lifted_rows_true (M : Model) (g2 : GState) (h2 : Inv M g2) (rows : List Row)
    (hrows : ∀ r ∈ rows,
      (∀ v ∈ r.vars, v.id < g2.mbo.vars.length) ∧ rowSat (Mbo.seed g2.mbo) r) :
    ∀ f ∈ rows.filterMap (liftRow (index2expr g2.tids)), evalF M f = true := by
  intro f hf
  obtain ⟨r, hr, hlift⟩ := List.mem_filterMap.mp hf
  obtain ⟨hids, hsat⟩ := hrows r hr
  apply liftRow_true M (index2expr g2.tids) (Mbo.seed g2.mbo) r f hlift hsat
  intro v hv
  exact (seed_eq_eval M g2 h2 v.id (hids v hv)).symm

mutual

/-- Occurrence of an expression inside another, transitively over
sub-terms (the relation `mark_rec` closes over). -/
def occursIn (x e : Expr) : Bool :=
  decide (x = e) || occursInList x e.kids
termination_by esize e
decreasing_by
  have := esizeList_kids_lt e
  omega

def occursInList (x : Expr) : List Expr → Bool
  | [] => false
  | z :: zs => occursIn x z || occursInList x zs
termination_by l => esizeList l
decreasing_by
  all_goals simp [esizeList]
  all_goals omega

end

/-- The scope-escaping set as the spec words it: the terms that appear in
the residue literals, transitively over sub-terms.  This definition
follows the words of the spec and exists to be compared with the
translated marking code. -/
def specScopeEscaping (residue : List Expr) (x : Expr) : Bool :=
  residue.any (fun f => occursIn x f)

/-- A fixed concrete model used by concrete instances. -/
def modelZero : Model := ⟨fun _ => 0, fun _ _ => 0, fun _ _ => false, fun _ => false⟩

/-- C1: for every model `M`, variable list `V` and literal list `L` such
that `M` satisfies every literal in `L`, and for every engine obeying the
facade contract (surviving rows reference registered ids and hold under
the seeded values), after running the projection entry point the mutated
literal list is still satisfied by `M`; in particular every literal lifted
from a surviving engine row evaluates to true in `M`. -/
theorem projectOp_preserves_model
    (oracle : Mbo → List ℕ → List Row) (M : Model) (vars fmls : List Expr)
    (hfmls : ∀ f ∈ fmls, evalF M f = true)
    (horacle : ∀ mbo elim r, r ∈ oracle mbo elim →
      (∀ v ∈ r.vars, v.id < mbo.vars.length) ∧ rowSat (Mbo.seed mbo) r) :
    ∀ f ∈ (projectOp oracle M vars fmls).fmls, evalF M f = true := by
  rw [projectOp]
  by_cases hart : vars.any (fun v => isArith v) = true
  · rw [if_neg (not_not_intro hart)]
    dsimp only
    intro f hf
    rcases List.mem_append.mp hf with hres | hlift
    · exact runLits_residue_true M ⟨Mbo.empty, []⟩ fmls [] hfmls (by intro x hx; cases hx)
        f hres
    · have hinv1 : Inv M (runLits M ⟨Mbo.empty, []⟩ fmls []).1 :=
        runLits_inv M ⟨Mbo.empty, []⟩ fmls [] (inv_empty M)
      have hinv2 := regFold_inv M vars (runLits M ⟨Mbo.empty, []⟩ fmls []).1 hinv1
      exact lifted_rows_true M _ hinv2 _ (fun r hr => horacle _ _ r hr) f hlift
  · rw [if_pos hart]
    exact hfmls

/-- C1 witness: the theorem applied to a concrete instance. -/
theorem projectOp_preserves_model_witness :
    evalF modelZero (Expr.le (.num 0) (.num 1)) = true := by
  refine projectOp_preserves_model (fun _ _ => []) modelZero []
    [Expr.le (.num 0) (.num 1)] ?_ ?_ (Expr.le (.num 0) (.num 1)) ?_
  · intro f hf
    rcases List.mem_singleton.mp hf with rfl
    rw [evalF, evalT, evalT]
    norm_num
  · intro mbo elim r hr
    cases hr
  · rw [projectOp]
    rw [if_pos (by simp [isArith])]
    exact List.mem_singleton_self _

/-- C10: a surviving engine row whose variable vector is empty produces no
literal: `liftRow` skips it, and the lifting loop of the driver appends
nothing for it (no ground literal `c R 0` is emitted). -/
theorem liftRow_empty_row_skipped (idx : ℕ → Expr) (c mo : ℚ) (ty : IneqType)
    (rows : List Row) :
    liftRow idx ⟨[], c, ty, mo⟩ = none ∧
    (Row.mk [] c ty mo :: rows).filterMap (liftRow idx) = rows.filterMap (liftRow idx) := by
  have h1 : liftRow idx ⟨[], c, ty, mo⟩ = none := rfl
  exact ⟨h1, by rw [List.filterMap_cons, h1]⟩

/-- C10 witness: the theorem applied to a concrete row. -/
theorem liftRow_empty_row_skipped_witness :
    liftRow (fun _ => Expr.atom 0) ⟨[], 3, .le, 0⟩ = none ∧
    (Row.mk [] 3 .le 0 :: []).filterMap (liftRow (fun _ => Expr.atom 0)) =
      ([] : List Row).filterMap (liftRow (fun _ => Expr.atom 0)) :=
  liftRow_empty_row_skipped (fun _ => Expr.atom 0) 3 0 .le []

/-- C2 counterexample: for the surviving row `−2·x + 5 ≤ 0` the lifting
step emits `2·x ≥ 5` (the right-hand side is the row constant `c`), not
`2·x ≥ −5` as the claim states. -/
theorem liftRow_single_neg_counterexample :
    liftRow (fun _ => Expr.atom 0) ⟨[⟨0, -2⟩], 5, .le, 0⟩ =
      some (.ge (.mul (.num 2) (.atom 0)) (.num 5)) ∧
    some (Expr.ge (.mul (.num 2) (.atom 0)) (.num 5)) ≠
      some (Expr.ge (.mul (.num 2) (.atom 0)) (.num (-5))) := by
  constructor
  · rw [liftRow]
    dsimp only
    rw [if_pos ⟨rfl, by norm_num, by simp⟩]
    norm_num
  · simp only [ne_eq, Option.some.injEq, Expr.ge.injEq, Expr.num.injEq]
    intro h
    norm_num at h

/-- C2 amended: for every surviving engine row with exactly one variable,
a negative coefficient and a type other than `mod`, the lifting step emits
the literal `(−coeff·x) R* c` where `c` is the row constant (and the
factor is omitted when the coefficient is `−1`), with `R*` the mirror of
the row type (`<` becomes `>`, `≤` becomes `≥`, `=` stays `=`). -/
theorem liftRow_single_neg (idx : ℕ → Expr) (i : ℕ) (a c mo : ℚ) (ty : IneqType)
    (hneg : a < 0) (hty : ty ≠ .mod) :
    liftRow idx ⟨[⟨i, a⟩], c, ty, mo⟩ =
      some ((match ty with
        | .lt => Expr.gt
        | .le => Expr.ge
        | _ => Expr.eq)
        (if a = -1 then idx i else .mul (.num (-a)) (idx i)) (.num c)) := by
  rw [liftRow]
  dsimp only
  rw [if_pos ⟨rfl, hneg, hty⟩]
  cases ty
  · rfl
  · rfl
  · rfl
  · exact absurd rfl hty

/-- C2 amended witness: the amended statement at a concrete row. -/
theorem liftRow_single_neg_witness :
    liftRow (fun _ => Expr.atom 0) ⟨[⟨0, -2⟩], 5, .le, 0⟩ =
      some (.ge (.mul (.num 2) (.atom 0)) (.num 5)) := by
  have h := liftRow_single_neg (fun _ => Expr.atom 0) 0 (-2) 5 0 .le (by norm_num) (by simp)
  rw [h]
  norm_num

/-- C6: for every `ite(g, u₂, u₃)` term reached during term linearization
the linearizer evaluates the guard in the model, recurses only into the
branch the model selects, and appends the guard (when the model makes it
true) or its negation (otherwise) to the caller's formula vector, so the
guard taken appears among the emitted side formulas. -/
theorem linearizeTerm_ite_model_branch (M : Model) (mul : ℚ) (t1 t2 t3 : Expr)
    (g : GState) (acc : Accum) :
    (evalF M t1 = true →
      linearizeTerm M mul (.ite t1 t2 t3) g acc =
        ⟨(linearizeTerm M mul t2 g acc).g, (linearizeTerm M mul t2 g acc).acc,
          (linearizeTerm M mul t2 g acc).news ++ [t1]⟩ ∧
      t1 ∈ (linearizeTerm M mul (.ite t1 t2 t3) g acc).news) ∧
    (evalF M t1 = false →
      linearizeTerm M mul (.ite t1 t2 t3) g acc =
        ⟨(linearizeTerm M mul t3 g acc).g, (linearizeTerm M mul t3 g acc).acc,
          mkNot t1 :: (linearizeTerm M mul t3 g acc).news⟩ ∧
      mkNot t1 ∈ (linearizeTerm M mul (.ite t1 t2 t3) g acc).news) := by
  constructor
  · intro hg
    have he : linearizeTerm M mul (.ite t1 t2 t3) g acc =
        ⟨(linearizeTerm M mul t2 g acc).g, (linearizeTerm M mul t2 g acc).acc,
          (linearizeTerm M mul t2 g acc).news ++ [t1]⟩ := by
      rw [linearizeTerm, if_pos hg]
    refine ⟨he, ?_⟩
    rw [he]
    exact List.mem_append_right _ (List.mem_singleton_self _)
  · intro hg
    have hg2 : ¬ evalF M t1 = true := by rw [hg]; exact Bool.false_ne_true
    have he : linearizeTerm M mul (.ite t1 t2 t3) g acc =
        ⟨(linearizeTerm M mul t3 g acc).g, (linearizeTerm M mul t3 g acc).acc,
          mkNot t1 :: (linearizeTerm M mul t3 g acc).news⟩ := by
      rw [linearizeTerm, if_neg hg2]
    refine ⟨he, ?_⟩
    rw [he]
    exact List.mem_cons_self _ _

/-- C6 witness: the theorem applied at a model-false guard. -/
theorem linearizeTerm_ite_model_branch_witness :
    linearizeTerm modelZero 1 (.ite .ff (.num 1) (.num 2)) ⟨Mbo.empty, []⟩ ⟨[], 0⟩ =
      ⟨(linearizeTerm modelZero 1 (.num 2) ⟨Mbo.empty, []⟩ ⟨[], 0⟩).g,
        (linearizeTerm modelZero 1 (.num 2) ⟨Mbo.empty, []⟩ ⟨[], 0⟩).acc,
        mkNot .ff :: (linearizeTerm modelZero 1 (.num 2) ⟨Mbo.empty, []⟩ ⟨[], 0⟩).news⟩ ∧
    mkNot .ff ∈ (linearizeTerm modelZero 1 (.ite .ff (.num 1) (.num 2))
      ⟨Mbo.empty, []⟩ ⟨[], 0⟩).news :=
  (linearizeTerm_ite_model_branch modelZero 1 .ff (.num 1) (.num 2)
    ⟨Mbo.empty, []⟩ ⟨[], 0⟩).2 rfl

/-- A model giving `x₀ ↦ 1` and every other constant `0`. -/
def modelOneZero : Model :=
  ⟨fun n => if n = 0 then 1 else 0, fun _ _ => 0, fun _ _ => false, fun _ => false⟩

/-- C3 amended: for a literal `¬(e₁ = e₂)` with arithmetic sides the
linearizer evaluates both sides in the model, swaps `e₁` and `e₂` exactly
when `val(e₁) < val(e₂)`, and then accumulates `+e₁` and `−e₂` under the
recorded negation multiplier `−1` into a single strict row submitted to
the engine. -/
theorem linearizeLit_neq (M : Model) (g : GState) (e1 e2 : Expr) (ha : isArith e1 = true) :
    linearizeLit M g (.not (.eq e1 e2)) =
      (if evalT M e1 < evalT M e2
       then submitIneq M g (-1) e2 e1 .lt
       else submitIneq M g (-1) e1 e2 .lt) := by
  have h0 : linearizeLit M g (.not (.eq e1 e2)) =
      linearizeLitCore M g true (-1) (.eq e1 e2) := rfl
  rw [h0, linearizeLitCore]
  rw [if_neg (by simp)]
  rw [if_pos (by simp [ha])]
  by_cases hsw : evalT M e1 < evalT M e2
  · simp only [hsw, if_true]
  · simp only [hsw, if_false]

/-- C3 amended witness: concrete instance where no swap happens because
the first value is larger. -/
theorem linearizeLit_neq_witness :
    linearizeLit modelOneZero ⟨Mbo.empty, []⟩ (.not (.eq (.atom 0) (.atom 1))) =
      submitIneq modelOneZero ⟨Mbo.empty, []⟩ (-1) (.atom 0) (.atom 1) .lt := by
  have h := linearizeLit_neq modelOneZero ⟨Mbo.empty, []⟩ (.atom 0) (.atom 1) rfl
  rw [h]
  rw [if_neg]
  rw [evalT, evalT]
  norm_num [modelOneZero]

/-- C3 counterexample: at `M(x₀) = 1, M(x₁) = 0` the code does not swap
(the claim says it swaps exactly when `val(e₁) > val(e₂)`): the literal
`¬(x₀ = x₁)` is submitted with the original orientation, and that result
differs from the swapped submission (the registration order of the two
terms differs). -/
theorem linearizeLit_neq_counterexample :
    (linearizeLit modelOneZero ⟨Mbo.empty, []⟩ (.not (.eq (.atom 0) (.atom 1))) =
      submitIneq modelOneZero ⟨Mbo.empty, []⟩ (-1) (.atom 0) (.atom 1) .lt) ∧
    (submitIneq modelOneZero ⟨Mbo.empty, []⟩ (-1) (.atom 0) (.atom 1) .lt).g.tids =
      [(Expr.atom 0, 0), (Expr.atom 1, 1)] ∧
    (submitIneq modelOneZero ⟨Mbo.empty, []⟩ (-1) (.atom 1) (.atom 0) .lt).g.tids =
      [(Expr.atom 1, 0), (Expr.atom 0, 1)] ∧
    (submitIneq modelOneZero ⟨Mbo.empty, []⟩ (-1) (.atom 0) (.atom 1) .lt).g.tids ≠
      (submitIneq modelOneZero ⟨Mbo.empty, []⟩ (-1) (.atom 1) (.atom 0) .lt).g.tids := by
  refine ⟨?_, ?_, ?_, ?_⟩
  · have h0 : linearizeLit modelOneZero ⟨Mbo.empty, []⟩ (.not (.eq (.atom 0) (.atom 1))) =
        linearizeLitCore modelOneZero ⟨Mbo.empty, []⟩ true (-1) (.eq (.atom 0) (.atom 1)) := rfl
    rw [h0, linearizeLitCore]
    rw [if_neg (by simp)]
    rw [if_pos (by simp [isArith])]
    have hsw : ¬ (evalT modelOneZero (Expr.atom 0) < evalT modelOneZero (Expr.atom 1)) := by
      rw [evalT, evalT]
      norm_num [modelOneZero]
    simp only [hsw, if_false]
  · simp [submitIneq, linearizeTerm, insertMul, extractCoefficients, lookupTid,
      Mbo.empty, Mbo.addVar, Mbo.addConstraint]
  · simp [submitIneq, linearizeTerm, insertMul, extractCoefficients, lookupTid,
      Mbo.empty, Mbo.addVar, Mbo.addConstraint]
  · intro h
    have h1 : (submitIneq modelOneZero ⟨Mbo.empty, []⟩ (-1) (.atom 0) (.atom 1) .lt).g.tids =
        [(Expr.atom 0, 0), (Expr.atom 1, 1)] := by
      simp [submitIneq, linearizeTerm, insertMul, extractCoefficients, lookupTid,
        Mbo.empty, Mbo.addVar, Mbo.addConstraint]
    have h2 : (submitIneq modelOneZero ⟨Mbo.empty, []⟩ (-1) (.atom 1) (.atom 0) .lt).g.tids =
        [(Expr.atom 1, 0), (Expr.atom 0, 1)] := by
      simp [submitIneq, linearizeTerm, insertMul, extractCoefficients, lookupTid,
        Mbo.empty, Mbo.addVar, Mbo.addConstraint]
    rw [h1, h2] at h
    simp at h

theorem lookupTid_some_mem (tids : List (Expr × ℕ)) (t : Expr) (id : ℕ)
    (h : lookupTid tids t = some id) : (t, id) ∈ tids := by
  rw [lookupTid] at h
  rcases hf : tids.find? (fun p => decide (p.1 = t)) with _ | p
  · rw [hf] at h
    cases h
  · rw [hf] at h
    simp only [Option.some.injEq] at h
    have hp := List.find?_some hf
    have hmem := List.mem_of_find?_eq_some hf
    simp only [decide_eq_true_eq] at hp
    have hpt : p = (t, id) := by
      rcases p with ⟨p1, p2⟩
      simp only at hp h
      rw [hp, h]
    rw [← hpt]
    exact hmem

theorem extractCoefficients_cons_none (M : Model) (g : GState) (v : Expr) (q : ℚ)
    (rest : List (Expr × ℚ)) (h : lookupTid g.tids v = none) :
    extractCoefficients M g ((v, q) :: rest) =
      ((extractCoefficients M
          ⟨(g.mbo.addVar (evalT M v)).1, g.tids ++ [(v, (g.mbo.addVar (evalT M v)).2)]⟩ rest).1,
       if q = 0 then
         (extractCoefficients M
           ⟨(g.mbo.addVar (evalT M v)).1, g.tids ++ [(v, (g.mbo.addVar (evalT M v)).2)]⟩ rest).2
       else ⟨(g.mbo.addVar (evalT M v)).2, q⟩ ::
         (extractCoefficients M
           ⟨(g.mbo.addVar (evalT M v)).1, g.tids ++ [(v, (g.mbo.addVar (evalT M v)).2)]⟩ rest).2) := by
  rw [extractCoefficients, h]

theorem extractCoefficients_cons_some (M : Model) (g : GState) (v : Expr) (q : ℚ)
    (rest : List (Expr × ℚ)) (id : ℕ) (h : lookupTid g.tids v = some id) :
    extractCoefficients M g ((v, q) :: rest) =
      ((extractCoefficients M g rest).1,
       if q = 0 then (extractCoefficients M g rest).2
       else ⟨id, q⟩ :: (extractCoefficients M g rest).2) := by
  rw [extractCoefficients, h]

theorem extractCoefficients_tids_prefix :
    ∀ (M : Model) (g : GState) (ts : List (Expr × ℚ)),
      ∃ d, (extractCoefficients M g ts).1.tids = g.tids ++ d
  | M, g, [] => ⟨[], by rw [extractCoefficients]; simp⟩
  | M, g, (v, q) :: rest => by
    rcases hl : lookupTid g.tids v with _ | id
    · rw [extractCoefficients_cons_none M g v q rest hl]
      obtain ⟨d, hd⟩ := extractCoefficients_tids_prefix M
        ⟨(g.mbo.addVar (evalT M v)).1, g.tids ++ [(v, (g.mbo.addVar (evalT M v)).2)]⟩ rest
      refine ⟨[(v, (g.mbo.addVar (evalT M v)).2)] ++ d, ?_⟩
      rw [hd]
      simp
    · rw [extractCoefficients_cons_some M g v q rest id hl]
      exact extractCoefficients_tids_prefix M g rest

theorem extractCoefficients_no_zero :
    ∀ (M : Model) (g : GState) (ts : List (Expr × ℚ)),
      ∀ v ∈ (extractCoefficients M g ts).2, v.coeff ≠ 0
  | M, g, [] => by
    rw [extractCoefficients]
    intro v hv
    cases hv
  | M, g, (v, q) :: rest => by
    rcases hl : lookupTid g.tids v with _ | id
    · rw [extractCoefficients_cons_none M g v q rest hl]
      by_cases hq : q = 0
      · rw [if_pos hq]
        exact extractCoefficients_no_zero M _ rest
      · rw [if_neg hq]
        intro w hw
        rcases List.mem_cons.mp hw with h | h
        · rw [h]
          exact hq
        · exact extractCoefficients_no_zero M _ rest w h
    · rw [extractCoefficients_cons_some M g v q rest id hl]
      by_cases hq : q = 0
      · rw [if_pos hq]
        exact extractCoefficients_no_zero M g rest
      · rw [if_neg hq]
        intro w hw
        rcases List.mem_cons.mp hw with h | h
        · rw [h]
          exact hq
        · exact extractCoefficients_no_zero M g rest w h

theorem extractCoefficients_mem :
    ∀ (M : Model) (g : GState) (ts : List (Expr × ℚ)),
      ∀ p ∈ ts, ∃ id, (p.1, id) ∈ (extractCoefficients M g ts).1.tids
  | M, g, [], p => by
    intro hp
    cases hp
  | M, g, (v, q) :: rest, p => by
    intro hp
    rcases hl : lookupTid g.tids v with _ | id
    · rw [extractCoefficients_cons_none M g v q rest hl]
      obtain ⟨d, hd⟩ := extractCoefficients_tids_prefix M
        ⟨(g.mbo.addVar (evalT M v)).1, g.tids ++ [(v, (g.mbo.addVar (evalT M v)).2)]⟩ rest
      rcases List.mem_cons.mp hp with h | h
      · refine ⟨(g.mbo.addVar (evalT M v)).2, ?_⟩
        rw [hd, h]
        simp
      · exact extractCoefficients_mem M _ rest p h
    · rw [extractCoefficients_cons_some M g v q rest id hl]
      rcases List.mem_cons.mp hp with h | h
      · obtain ⟨d, hd⟩ := extractCoefficients_tids_prefix M g rest
        refine ⟨id, ?_⟩
        rw [hd, h]
        exact List.mem_append_left _ (lookupTid_some_mem g.tids v id hl)
      · exact extractCoefficients_mem M g rest p h

/-- C9: every coefficient vector the extractor submits to the engine is
free of zero-coefficient entries (zero entries of the accumulator map are
dropped), while every term the extractor walks is registered with an
engine variable whose seed is the model value of the term. -/
theorem extractCoefficients_registers (M : Model) (g : GState) (ts : List (Expr × ℚ))
    (h : Inv M g) :
    (∀ v ∈ (extractCoefficients M g ts).2, v.coeff ≠ 0) ∧
    (∀ p ∈ ts, ∃ id, (p.1, id) ∈ (extractCoefficients M g ts).1.tids ∧
      Mbo.seed (extractCoefficients M g ts).1.mbo id = evalT M p.1) := by
  refine ⟨extractCoefficients_no_zero M g ts, ?_⟩
  intro p hp
  obtain ⟨id, hid⟩ := extractCoefficients_mem M g ts p hp
  obtain ⟨h1, _, _⟩ := extractCoefficients_inv M g ts h
  obtain ⟨_, hval⟩ := h1 (p.1, id) hid
  exact ⟨id, hid, hval⟩

/-- C9 witness: a concrete extraction with one zero entry and one fresh
term: the zero entry is dropped but both terms are registered with their
model values as seeds. -/
theorem extractCoefficients_registers_witness :
    (∀ v ∈ (extractCoefficients modelOneZero ⟨Mbo.empty, []⟩
        [(Expr.atom 0, 0), (Expr.atom 1, 2)]).2, v.coeff ≠ 0) ∧
    (∀ p ∈ [(Expr.atom 0, (0 : ℚ)), (Expr.atom 1, 2)],
      ∃ id, (p.1, id) ∈ (extractCoefficients modelOneZero ⟨Mbo.empty, []⟩
          [(Expr.atom 0, 0), (Expr.atom 1, 2)]).1.tids ∧
        Mbo.seed (extractCoefficients modelOneZero ⟨Mbo.empty, []⟩
          [(Expr.atom 0, 0), (Expr.atom 1, 2)]).1.mbo id = evalT modelOneZero p.1) :=
  extractCoefficients_registers modelOneZero ⟨Mbo.empty, []⟩
    [(Expr.atom 0, 0), (Expr.atom 1, 2)] (inv_empty modelOneZero)

theorem evalTArgs_eq_map (M : Model) : ∀ l : List Expr, evalTArgs M l = l.map (evalT M)
  | [] => by rw [evalTArgs]; rfl
  | x :: xs => by rw [evalTArgs, evalTArgs_eq_map M xs]; rfl

/-- C8: for a non-negated `distinct(a₁,…,aₙ)` literal over arithmetic
terms that is true in the model, the linearizer evaluates each argument,
sorts the argument/value pairs ascending by value — strictly ascending,
since the values are pairwise different when `distinct` holds in the model
— and processes exactly the consecutive pairs of the sorted sequence,
submitting the strict inequality `aᵢ < aᵢ₊₁` for each pair; the recursive
`linearize` call on such a built literal is precisely the `<` case of the
dispatch. -/
theorem linearizeLit_distinct (M : Model) (g : GState) (a0 : Expr) (rest : List Expr)
    (ha : isArith a0 = true)
    (hdist : evalF M (.distinct (a0 :: rest)) = true) :
    (List.insertionSort (fun p q : Expr × ℚ => p.2 ≤ q.2)
        ((a0 :: rest).map (fun a => (a, evalT M a)))).Perm
      ((a0 :: rest).map (fun a => (a, evalT M a))) ∧
    ((List.insertionSort (fun p q : Expr × ℚ => p.2 ≤ q.2)
        ((a0 :: rest).map (fun a => (a, evalT M a)))).map Prod.snd).Sorted (· < ·) ∧
    linearizeLit M g (.distinct (a0 :: rest)) =
      distinctPairs M g (List.insertionSort (fun p q : Expr × ℚ => p.2 ≤ q.2)
        ((a0 :: rest).map (fun a => (a, evalT M a)))) ∧
    (∀ (g2 : GState) (a b : Expr),
      linearizeLitCore M g2 false 1 (.lt a b) = linearizeLit M g2 (.lt a b)) := by
  haveI hto : IsTotal (Expr × ℚ) (fun p q => p.2 ≤ q.2) := ⟨fun a b => le_total a.2 b.2⟩
  haveI htr : IsTrans (Expr × ℚ) (fun p q => p.2 ≤ q.2) := ⟨fun a b c h1 h2 => le_trans h1 h2⟩
  have hperm := List.perm_insertionSort (fun p q : Expr × ℚ => p.2 ≤ q.2)
    ((a0 :: rest).map (fun a => (a, evalT M a)))
  refine ⟨hperm, ?_, ?_, ?_⟩
  · have hle := List.sorted_insertionSort (fun p q : Expr × ℚ => p.2 ≤ q.2)
      ((a0 :: rest).map (fun a => (a, evalT M a)))
    have hlem : (List.map Prod.snd (List.insertionSort (fun p q : Expr × ℚ => p.2 ≤ q.2)
        ((a0 :: rest).map (fun a => (a, evalT M a))))).Pairwise (· ≤ ·) := by
      rw [List.pairwise_map]
      exact hle
    have hvals : ((a0 :: rest).map (fun a => (a, evalT M a))).map Prod.snd =
        (a0 :: rest).map (evalT M) := by
      rw [List.map_map]
      rfl
    have hne0 : ((a0 :: rest).map (evalT M)).Pairwise (· ≠ ·) := by
      rw [evalF] at hdist
      simp only [decide_eq_true_eq] at hdist
      rw [evalTArgs_eq_map] at hdist
      exact hdist
    have hne : (List.map Prod.snd (List.insertionSort (fun p q : Expr × ℚ => p.2 ≤ q.2)
        ((a0 :: rest).map (fun a => (a, evalT M a))))).Pairwise (· ≠ ·) := by
      have hpm := hperm.map Prod.snd
      rw [hvals] at hpm
      exact ((hpm.pairwise_iff (fun h => Ne.symm h)).mpr hne0)
    exact (hlem.and hne).imp (fun h => lt_of_le_of_ne h.1 h.2)
  · have h0 : linearizeLit M g (.distinct (a0 :: rest)) =
        linearizeLitPeeled M g false 1 (.distinct (a0 :: rest)) := rfl
    rw [h0, linearizeLitPeeled]
    rw [if_pos ha]
    rw [if_neg (by simp)]
  · intro g2 a b
    rfl

/-- C8 witness: the sorted-pairs equation at a concrete `distinct`
literal whose two arguments have model values `1` and `0`. -/
theorem linearizeLit_distinct_witness :
    linearizeLit modelOneZero ⟨Mbo.empty, []⟩ (.distinct [.atom 0, .atom 1]) =
      distinctPairs modelOneZero ⟨Mbo.empty, []⟩
        (List.insertionSort (fun p q : Expr × ℚ => p.2 ≤ q.2)
          ([Expr.atom 0, Expr.atom 1].map (fun a => (a, evalT modelOneZero a)))) :=
  (linearizeLit_distinct modelOneZero ⟨Mbo.empty, []⟩ (.atom 0) [.atom 1] rfl (by
    rw [evalF]
    simp only [decide_eq_true_eq]
    rw [evalTArgs_eq_map]
    simp [evalT, modelOneZero])).2.2.1

theorem ratMod_sub_self (a k : ℚ) : ratMod (a - ratMod a k) k = 0 := by
  by_cases hk : k = 0
  · simp [ratMod, hk]
  · by_cases hp : 0 < k
    · have h1 : ratMod a k = a - k * (⌊a / k⌋ : ℚ) := by
        rw [ratMod, if_neg hk, if_pos hp]
      rw [h1]
      have h2 : a - (a - k * (⌊a / k⌋ : ℚ)) = k * (⌊a / k⌋ : ℚ) := by ring
      rw [h2, ratMod, if_neg hk, if_pos hp]
      have h3 : k * (⌊a / k⌋ : ℚ) / k = (⌊a / k⌋ : ℚ) := by
        field_simp
      rw [h3, Int.floor_intCast]
      ring
    · have h1 : ratMod a k = a - k * (⌈a / k⌉ : ℚ) := by
        rw [ratMod, if_neg hk, if_neg hp]
      rw [h1]
      have h2 : a - (a - k * (⌈a / k⌉ : ℚ)) = k * (⌈a / k⌉ : ℚ) := by ring
      rw [h2, ratMod, if_neg hk, if_neg hp]
      have h3 : k * (⌈a / k⌉ : ℚ) / k = (⌈a / k⌉ : ℚ) := by
        field_simp
      rw [h3, Int.ceil_intCast]
      ring

theorem dotVal_cons (ν : ℕ → ℚ) (w : MboVar) (l : List MboVar) :
    dotVal ν (w :: l) = w.coeff * ν w.id + dotVal ν l := by
  simp [dotVal]

theorem accSum_cons (M : Model) (v : Expr) (q : ℚ) (rest : List (Expr × ℚ)) :
    accSum M ((v, q) :: rest) = q * evalT M v + accSum M rest := by
  simp [accSum]

/-- Under the registry invariant, the coefficient vector extracted from an
accumulator map values (under the final seed assignment) to exactly the
model valuation of the map. -/
theorem extract_dotVal :
    ∀ (M : Model) (g : GState) (ts : List (Expr × ℚ)), Inv M g →
      dotVal (Mbo.seed (extractCoefficients M g ts).1.mbo)
          (extractCoefficients M g ts).2 = accSum M ts
  | M, g, [], _ => by
    rw [extractCoefficients]
    simp [dotVal, accSum]
  | M, g, (v, q) :: rest, h => by
    rcases hl : lookupTid g.tids v with _ | id
    · rw [extractCoefficients_cons_none M g v q rest hl]
      have hinv2 : Inv M ⟨(g.mbo.addVar (evalT M v)).1,
          g.tids ++ [(v, (g.mbo.addVar (evalT M v)).2)]⟩ :=
        invVT_extend M g.mbo.vars g.tids v h
      have ih := extract_dotVal M ⟨(g.mbo.addVar (evalT M v)).1,
          g.tids ++ [(v, (g.mbo.addVar (evalT M v)).2)]⟩ rest hinv2
      have hmem : (v, (g.mbo.addVar (evalT M v)).2) ∈
          (extractCoefficients M ⟨(g.mbo.addVar (evalT M v)).1,
            g.tids ++ [(v, (g.mbo.addVar (evalT M v)).2)]⟩ rest).1.tids := by
        obtain ⟨d, hd⟩ := extractCoefficients_tids_prefix M ⟨(g.mbo.addVar (evalT M v)).1,
          g.tids ++ [(v, (g.mbo.addVar (evalT M v)).2)]⟩ rest
        rw [hd]
        exact List.mem_append.mpr (Or.inl (List.mem_append.mpr
          (Or.inr (List.mem_singleton.mpr rfl))))
      have hseed : Mbo.seed (extractCoefficients M ⟨(g.mbo.addVar (evalT M v)).1,
            g.tids ++ [(v, (g.mbo.addVar (evalT M v)).2)]⟩ rest).1.mbo
          (g.mbo.addVar (evalT M v)).2 = evalT M v := by
        obtain ⟨h1, _, _⟩ := extractCoefficients_inv M ⟨(g.mbo.addVar (evalT M v)).1,
          g.tids ++ [(v, (g.mbo.addVar (evalT M v)).2)]⟩ rest hinv2
        exact (h1 _ hmem).2
      by_cases hq : q = 0
      · rw [if_pos hq]
        dsimp only
        rw [ih, accSum_cons, hq]
        ring
      · rw [if_neg hq]
        dsimp only
        rw [dotVal_cons, ih, accSum_cons, hseed]
    · rw [extractCoefficients_cons_some M g v q rest id hl]
      have ih := extract_dotVal M g rest h
      have hmem : (v, id) ∈ (extractCoefficients M g rest).1.tids := by
        obtain ⟨d, hd⟩ := extractCoefficients_tids_prefix M g rest
        rw [hd]
        exact List.mem_append.mpr (Or.inl (lookupTid_some_mem g.tids v id hl))
      have hseed : Mbo.seed (extractCoefficients M g rest).1.mbo id = evalT M v := by
        obtain ⟨h1, _, _⟩ := extractCoefficients_inv M g rest h
        exact (h1 _ hmem).2
      by_cases hq : q = 0
      · rw [if_pos hq]
        dsimp only
        rw [ih, accSum_cons, hq]
        ring
      · rw [if_neg hq]
        dsimp only
        rw [dotVal_cons, ih, accSum_cons, hseed]

/-- C7: linearizing a sub-term `u mod k` with constant `k` under
multiplier `mul` evaluates `r := val(u mod k)` in the model, adds `mul·r`
to the accumulator constant while leaving its term map untouched, and
separately submits one divisibility row to the engine whose linear part
(under the engine seed assignment) is `val(u) − r` with modulus `k` — the
row states `u ≡ r (mod k)`; that row is satisfied under the seeds, i.e.
`(u − r) mod k = 0` holds in the model, so a later lift of the mod row
yields a literal true in `M`. -/
theorem linearizeTerm_mod (M : Model) (mul : ℚ) (t1 t2 : Expr) (g : GState) (acc : Accum)
    (k : ℚ) (hk : isNumeral t2 = some k) (hinv : Inv M g) :
    (linearizeTerm M mul (.emod t1 t2) g acc).acc.c =
        acc.c + mul * evalT M (.emod t1 t2) ∧
    (linearizeTerm M mul (.emod t1 t2) g acc).acc.ts = acc.ts ∧
    (linearizeTerm M mul (.emod t1 t2) g acc).g.mbo.cons =
        (extractCoefficients M
            (linearizeTerm M 1 t1 g ⟨[], -(evalT M (.emod t1 t2))⟩).g
            (linearizeTerm M 1 t1 g ⟨[], -(evalT M (.emod t1 t2))⟩).acc.ts).1.mbo.cons ++
          [⟨(extractCoefficients M
              (linearizeTerm M 1 t1 g ⟨[], -(evalT M (.emod t1 t2))⟩).g
              (linearizeTerm M 1 t1 g ⟨[], -(evalT M (.emod t1 t2))⟩).acc.ts).2,
            (linearizeTerm M 1 t1 g ⟨[], -(evalT M (.emod t1 t2))⟩).acc.c, .mod, k⟩] ∧
    dotVal (Mbo.seed (linearizeTerm M mul (.emod t1 t2) g acc).g.mbo)
          (extractCoefficients M
            (linearizeTerm M 1 t1 g ⟨[], -(evalT M (.emod t1 t2))⟩).g
            (linearizeTerm M 1 t1 g ⟨[], -(evalT M (.emod t1 t2))⟩).acc.ts).2 +
        (linearizeTerm M 1 t1 g ⟨[], -(evalT M (.emod t1 t2))⟩).acc.c =
      evalT M t1 - evalT M (.emod t1 t2) ∧
    rowSat (Mbo.seed (linearizeTerm M mul (.emod t1 t2) g acc).g.mbo)
      ⟨(extractCoefficients M
          (linearizeTerm M 1 t1 g ⟨[], -(evalT M (.emod t1 t2))⟩).g
          (linearizeTerm M 1 t1 g ⟨[], -(evalT M (.emod t1 t2))⟩).acc.ts).2,
        (linearizeTerm M 1 t1 g ⟨[], -(evalT M (.emod t1 t2))⟩).acc.c, .mod, k⟩ := by
  have hres : linearizeTerm M mul (.emod t1 t2) g acc =
      ⟨{ (extractCoefficients M
            (linearizeTerm M 1 t1 g ⟨[], -(evalT M (.emod t1 t2))⟩).g
            (linearizeTerm M 1 t1 g ⟨[], -(evalT M (.emod t1 t2))⟩).acc.ts).1 with
          mbo := (extractCoefficients M
            (linearizeTerm M 1 t1 g ⟨[], -(evalT M (.emod t1 t2))⟩).g
            (linearizeTerm M 1 t1 g ⟨[], -(evalT M (.emod t1 t2))⟩).acc.ts).1.mbo.addDivides
              (extractCoefficients M
                (linearizeTerm M 1 t1 g ⟨[], -(evalT M (.emod t1 t2))⟩).g
                (linearizeTerm M 1 t1 g ⟨[], -(evalT M (.emod t1 t2))⟩).acc.ts).2
              (linearizeTerm M 1 t1 g ⟨[], -(evalT M (.emod t1 t2))⟩).acc.c k },
        { acc with c := acc.c + mul * evalT M (.emod t1 t2) },
        (linearizeTerm M 1 t1 g ⟨[], -(evalT M (.emod t1 t2))⟩).news⟩ := by
    rw [linearizeTerm, hk]
  have hinv1 : Inv M (linearizeTerm M 1 t1 g ⟨[], -(evalT M (.emod t1 t2))⟩).g :=
    linearizeTerm_inv M 1 t1 g ⟨[], -(evalT M (.emod t1 t2))⟩ hinv
  have hdot := extract_dotVal M (linearizeTerm M 1 t1 g ⟨[], -(evalT M (.emod t1 t2))⟩).g
    (linearizeTerm M 1 t1 g ⟨[], -(evalT M (.emod t1 t2))⟩).acc.ts hinv1
  have hsem := linearizeTerm_sem M 1 t1 g ⟨[], -(evalT M (.emod t1 t2))⟩
  have haccnil : accSum M (Accum.ts ⟨[], -(evalT M (.emod t1 t2))⟩) = 0 := by
    simp [accSum]
  have hseedsame : Mbo.seed (linearizeTerm M mul (.emod t1 t2) g acc).g.mbo =
      Mbo.seed (extractCoefficients M
          (linearizeTerm M 1 t1 g ⟨[], -(evalT M (.emod t1 t2))⟩).g
          (linearizeTerm M 1 t1 g ⟨[], -(evalT M (.emod t1 t2))⟩).acc.ts).1.mbo := by
    funext id
    rw [hres]
    rfl
  have hsum : dotVal (Mbo.seed (linearizeTerm M mul (.emod t1 t2) g acc).g.mbo)
        (extractCoefficients M
          (linearizeTerm M 1 t1 g ⟨[], -(evalT M (.emod t1 t2))⟩).g
          (linearizeTerm M 1 t1 g ⟨[], -(evalT M (.emod t1 t2))⟩).acc.ts).2 +
      (linearizeTerm M 1 t1 g ⟨[], -(evalT M (.emod t1 t2))⟩).acc.c =
        evalT M t1 - evalT M (.emod t1 t2) := by
    rw [hseedsame, hdot]
    have := hsem
    rw [haccnil] at this
    dsimp only at this
    linarith
  refine ⟨?_, ?_, ?_, hsum, ?_⟩
  · rw [hres]
  · rw [hres]
  · rw [hres]
    rfl
  · rw [rowSat]
    dsimp only
    rw [hsum]
    have hk2 : evalT M t2 = k := isNumeral_eval M t2 k hk
    have hr : evalT M (.emod t1 t2) = ratMod (evalT M t1) k := by
      rw [evalT, hk2]
    rw [hr]
    exact ratMod_sub_self (evalT M t1) k

/-- C7 witness: the constant-update conjunct at a concrete `mod` term. -/
theorem linearizeTerm_mod_witness :
    (linearizeTerm modelOneZero 1 (.emod (.atom 0) (.num 3)) ⟨Mbo.empty, []⟩ ⟨[], 0⟩).acc.c =
      (0 : ℚ) + 1 * evalT modelOneZero (.emod (.atom 0) (.num 3)) :=
  (linearizeTerm_mod modelOneZero 1 (.atom 0) (.num 3) ⟨Mbo.empty, []⟩ ⟨[], 0⟩ 3
    (by rw [isNumeral]) (inv_empty modelOneZero)).1

/-- C5: the witness bounds emitted by the optimizer driver follow the
three-way case split on the engine value: if the value is not finite
(`+∞`), `ge` is `t ≥ M(t)` (with `M` the updated model) and `gt` is
`false`; if it is finite with a negative infinitesimal part, `ge` is
`t ≥ M(t)` and `gt` is `t ≥ value`; if it is finite with a zero or
positive infinitesimal part, `ge` is `t ≥ value` and `gt` is
`t > value`. -/
theorem maximize_bounds (oracleVal : Mbo → InfEps) (oracleGet : Mbo → ℕ → ℚ)
    (M : Model) (fmls0 : List Expr) (t : Expr) :
    ((maximize oracleVal oracleGet M fmls0 t).value.isFinite = false →
      (maximize oracleVal oracleGet M fmls0 t).ge =
        .ge t (.num (evalT (maximize oracleVal oracleGet M fmls0 t).mdl t)) ∧
      (maximize oracleVal oracleGet M fmls0 t).gt = .ff) ∧
    ((maximize oracleVal oracleGet M fmls0 t).value.isFinite = true →
      (maximize oracleVal oracleGet M fmls0 t).value.eps < 0 →
      (maximize oracleVal oracleGet M fmls0 t).ge =
        .ge t (.num (evalT (maximize oracleVal oracleGet M fmls0 t).mdl t)) ∧
      (maximize oracleVal oracleGet M fmls0 t).gt =
        .ge t (.num (maximize oracleVal oracleGet M fmls0 t).value.rat)) ∧
    ((maximize oracleVal oracleGet M fmls0 t).value.isFinite = true →
      0 ≤ (maximize oracleVal oracleGet M fmls0 t).value.eps →
      (maximize oracleVal oracleGet M fmls0 t).ge =
        .ge t (.num (maximize oracleVal oracleGet M fmls0 t).value.rat) ∧
      (maximize oracleVal oracleGet M fmls0 t).gt =
        .gt t (.num (maximize oracleVal oracleGet M fmls0 t).value.rat)) := by
  simp only [maximize]
  split
  · next hc =>
    rw [Bool.not_eq_true'] at hc
    refine ⟨fun _ => ⟨rfl, rfl⟩, fun h1 _ => ?_, fun h1 _ => ?_⟩ <;>
      rw [hc] at h1 <;> cases h1
  · next hc =>
    simp only [Bool.not_eq_true', Bool.not_eq_false] at hc
    split
    · next h2 =>
      refine ⟨fun h1 => ?_, fun _ _ => ⟨rfl, rfl⟩, fun _ h3 => ?_⟩
      · rw [hc] at h1
        cases h1
      · exact absurd h3 (not_le.mpr h2)
    · next h2 =>
      refine ⟨fun h1 => ?_, fun _ h3 => ?_, fun _ _ => ⟨rfl, rfl⟩⟩
      · rw [hc] at h1
        cases h1
      · exact absurd h3 h2

/-- C5 witness: the unbounded case at a constant-`+∞` engine oracle. -/
theorem maximize_bounds_witness :
    (maximize (fun _ => ⟨false, 0, 0⟩) (fun _ _ => 0) modelZero [] (.num 0)).ge =
      .ge (.num 0) (.num (evalT (maximize (fun _ => ⟨false, 0, 0⟩) (fun _ _ => 0)
        modelZero [] (.num 0)).mdl (.num 0))) ∧
    (maximize (fun _ => ⟨false, 0, 0⟩) (fun _ _ => 0) modelZero [] (.num 0)).gt = .ff :=
  (maximize_bounds (fun _ => ⟨false, 0, 0⟩) (fun _ _ => 0) modelZero [] (.num 0)).1 rfl

/-- C4: the marking pass walks only the residue literals themselves, not
their sub-terms, so a registered variable that occurs strictly inside a
residue literal is not detected as scope-escaping: on `V = {x}` and
`L = {p(x)}` with `p` an uninterpreted predicate, the projection
eliminates `x` (empty surviving variable list) while `x` still occurs in
the untouched output literal `p(x)` — the spec-worded transitive
occurrence check classifies `x` as scope-escaping, contradicting the
claimed post-condition that output literals avoid eliminated
variables. -/
theorem scope_escape_bug :
    (projectOp (fun _ _ => []) modelZero [Expr.atom 0] [Expr.papp 0 [Expr.atom 0]]).vars = [] ∧
    (projectOp (fun _ _ => []) modelZero [Expr.atom 0]
        [Expr.papp 0 [Expr.atom 0]]).fmls = [Expr.papp 0 [Expr.atom 0]] ∧
    specScopeEscaping [Expr.papp 0 [Expr.atom 0]] (Expr.atom 0) = true := by
  have hlit : linearizeLit modelZero ⟨Mbo.empty, []⟩ (Expr.papp 0 [Expr.atom 0]) =
      ⟨⟨Mbo.empty, []⟩, [], false⟩ := rfl
  have hrun : runLits modelZero ⟨Mbo.empty, []⟩ [Expr.papp 0 [Expr.atom 0]] [] =
      (⟨Mbo.empty, []⟩, [Expr.papp 0 [Expr.atom 0]]) := by
    rw [runLits]
    rw [hlit]
    simp only [Bool.false_eq_true, if_false, List.nil_append, List.append_nil]
    rw [runLits]
  have hproj : projectOp (fun _ _ => []) modelZero [Expr.atom 0] [Expr.papp 0 [Expr.atom 0]] =
      ⟨[], [Expr.papp 0 [Expr.atom 0]]⟩ := by
    rw [projectOp]
    rw [if_neg (by simp [isArith])]
    rw [hrun]
    simp [isArith, lookupTid, List.find?, Mbo.empty, Mbo.addVar]
  refine ⟨by rw [hproj], by rw [hproj], ?_⟩
  simp [specScopeEscaping, occursIn, occursInList, Expr.kids]

end QeArith
